import Mathlib
/-!
Verification development for the zenin-limiter rate-limiting engine.

The TypeScript source is shallowly embedded as follows:
* JS `Map` objects become association lists `List (String × α)` in insertion
  order (JS maps iterate in insertion order; `keys().next().value` is the head,
  setting an existing key keeps its position, setting a new key appends).
* Timestamps and durations become integers `ℤ` (`Date.now()` returns whole
  milliseconds; the fixed- and sliding-window strategies only add, subtract,
  multiply and compare them).  The window length in seconds is likewise taken
  to be an integer.  JS uses IEEE doubles; none of the verified claims
  concerns rounding, and `NaN`/`Infinity` are not representable here (the
  source rejects them with `Number.isFinite` where it validates at all).  The
  token bucket's fractional token balance and refill rate are exact rationals
  `ℚ`.
* Integer-valued counters and config sizes become `ℕ`.
* `while` loops are written as structurally recursive functions on an explicit
  fuel argument chosen at each call site to be an exact bound on the number of
  iterations the JS loop can perform, so that all definitions reduce in the
  kernel.
* Code that throws returns `Except String α`; stateful operations return the
  post-state next to the result, since in the source mutations performed before
  a `throw` persist.
-/

deriving instance DecidableEq for Except

/-- The JS validity test `typeof key !== "string" || key.trim() === ""`
restricted to strings (non-string keys are not representable in the typed
embedding): `key.trim()` is empty exactly when every character of the key is
whitespace. -/
def trimmedEmpty (key : String) : Bool := key.data.all (fun c => c.isWhitespace)

/-- Entry lookup in a JS `Map` modelled as an insertion-ordered association
list. -/
def mapGet {α : Type} : List (String × α) → String → Option α
  | [], _ => none
  | (k, v) :: rest, key => if k = key then some v else mapGet rest key

/-- `Map.set`: updating an existing key keeps its position in insertion order,
a new key is appended at the end. -/
def mapSet {α : Type} : List (String × α) → String → α → List (String × α)
  | [], key, val => [(key, val)]
  | (k, v) :: rest, key, val =>
    if k = key then (k, val) :: rest else (k, v) :: mapSet rest key val

/-- `Map.delete`: removes the (unique) entry for a key, preserving the order of
the others. -/
def mapDelete {α : Type} : List (String × α) → String → List (String × α)
  | [], _ => []
  | (k, v) :: rest, key => if k = key then rest else (k, v) :: mapDelete rest key

/-- JS `a || b` for optional numeric config fields: `0` is falsy, so both a
missing field and an explicit `0` fall back to the default. -/
def orDefaultNat (o : Option ℕ) (d : ℕ) : ℕ :=
  match o with
  | some v => if v = 0 then d else v
  | none => d

/-- A node in the expiry min-heap (`HeapNode` in `memoryStore.ts`). -/
structure HeapNode where
  key : String
  expiresAt : ℤ

deriving DecidableEq, Repr

/-- The sift-up loop of `heapPush`: starting from index `i` (where the new node
conceptually sits), repeatedly copy the parent down while it is strictly larger,
then store the node.  `fuel` bounds the iteration count; it is called with
`fuel = i`, which suffices because the index strictly decreases. -/
def siftUp (node : HeapNode) : ℕ → List HeapNode → ℕ → List HeapNode
  | 0, h, i => h.set i node
  | fuel + 1, h, i =>
    if i = 0 then h.set i node
    else
      let parent := (i - 1) / 2
      match h.get? parent with
      | none => h.set i node
      | some p =>
        if p.expiresAt ≤ node.expiresAt then h.set i node
        else siftUp node fuel (h.set i p) parent

/-- `heapPush` from `memoryStore.ts`: append, then sift up. -/
def heapPush (h : List HeapNode) (node : HeapNode) : List HeapNode :=
  siftUp node h.length (h ++ [node]) h.length

/-- Index of the smaller of `h[cand]` and `h[i]`, defaulting to `i` when `cand`
is out of bounds — the bounds-checked comparison inside `heapPop`'s loop. -/
def smallerIdx (h : List HeapNode) (cand i : ℕ) : ℕ :=
  match h.get? cand, h.get? i with
  | some c, some cur => if c.expiresAt < cur.expiresAt then cand else i
  | _, _ => i

/-- The sift-down loop of `heapPop`.  `fuel` bounds the iterations; called with
`fuel = h.length`, enough since the index strictly increases and stays below
the length. -/
def siftDown : ℕ → List HeapNode → ℕ → List HeapNode
  | 0, h, _ => h
  | fuel + 1, h, i =>
    let s1 := smallerIdx h (2 * i + 1) i
    let s := smallerIdx h (2 * i + 2) s1
    if s = i then h
    else
      match h.get? i, h.get? s with
      | some a, some b => siftDown fuel ((h.set i b).set s a) s
      | _, _ => h

/-- `heapPop` from `memoryStore.ts`: take the root, move the last element to
the root, sift down.  Returns the popped node with the remaining heap. -/
def heapPop (h : List HeapNode) : Option HeapNode × List HeapNode :=
  match h with
  | [] => (none, [])
  | top :: rest =>
    match rest.getLast? with
    | none => (some top, [])
    | some last =>
      let h1 := (top :: rest).dropLast
      let h2 := h1.set 0 last
      (some top, siftDown h2.length h2 0)

/-- Per-key record of the fixed-window memory store (`MemoryStoreData`); the
`lruNode` pointer is represented by membership in the `lru` list of the
state. -/
structure MemEntry where
  count : ℕ
  expiresAt : ℤ

deriving DecidableEq, Repr

/-- The module-level mutable state of `memoryStore.ts`: the key map, the expiry
min-heap, the global counters, the LRU doubly-linked list (head = most recently
used), and the optional per-key stats map. -/
structure FwState where
  store : List (String × MemEntry)
  heap : List HeapNode
  hits : ℕ
  rejections : ℕ
  callCount : ℕ
  lru : List String
  perKeyStats : List (String × (ℕ × ℕ))

deriving DecidableEq, Repr

/-- Fresh module state: all maps empty, all counters zero. -/
def fwInit : FwState := ⟨[], [], 0, 0, 0, [], []⟩

/-- Unlinking one LRU node: remove the first (by the nodup invariant, only)
occurrence of a key from the recency list. -/
def removeKey : List String → String → List String
  | [], _ => []
  | k :: rest, key => if k = key then rest else k :: removeKey rest key

/-- `addLruNode`: a newly created key becomes the most recently used. -/
def addLruNode (s : FwState) (k : String) : FwState :=
  { s with lru := k :: s.lru }

/-- `moveToFront`: promote an accessed key to most recently used. -/
def moveToFront (s : FwState) (k : String) : FwState :=
  { s with lru := k :: removeKey s.lru k }

/-- `removeLruTail`: evict the least-recently-used key (tail of the recency
list), deleting it from the store and the per-key stats; a no-op when the list
is empty. -/
def removeLruTail (s : FwState) : FwState :=
  match s.lru.getLast? with
  | none => s
  | some k =>
    { s with store := mapDelete s.store k,
             perKeyStats := mapDelete s.perKeyStats k,
             lru := s.lru.dropLast }

/-- Delete a key from store, per-key stats and recency list together (the
unlink-and-delete block run when a popped expiry entry is authoritative). -/
def dropKey (s : FwState) (k : String) : FwState :=
  { s with store := mapDelete s.store k,
           perKeyStats := mapDelete s.perKeyStats k,
           lru := removeKey s.lru k }

/-- The batch-capped reclamation loop (steps 1 and 2 of `isAllowedMemory` and
`sweepExpiredKeys`): while the heap minimum has `expiresAt ≤ threshold` and the
batch cap is not reached, pop it and, if it still matches the live record
(authoritative), delete that record.  `fuel` is the remaining batch budget. -/
def reclaim (threshold : ℤ) : ℕ → FwState → FwState
  | 0, s => s
  | b + 1, s =>
    match s.heap.head? with
    | none => s
    | some top =>
      if top.expiresAt ≤ threshold then
        let s1 : FwState := { s with heap := (heapPop s.heap).2 }
        let s2 : FwState :=
          match mapGet s1.store top.key with
          | some cur => if cur.expiresAt = top.expiresAt then dropKey s1 top.key else s1
          | none => s1
        reclaim threshold b s2
      else s

/-- The capacity-bound loop: `while (memoryStore.size >= maxSize) removeLruTail()`.
`fuel` is called with the current length of the recency list, a bound on the
iterations (each eviction shortens the list; the JS loop spins forever on the
inconsistent state of a nonempty store with an empty recency list, which is
unreachable, and the model stops there). -/
def enforceCap (maxSize : ℕ) : ℕ → FwState → FwState
  | 0, s => s
  | f + 1, s =>
    if maxSize ≤ s.store.length then
      if s.lru.isEmpty then s else enforceCap maxSize f (removeLruTail s)
    else s

/-- Optional per-call store configuration (`RateLimiterConfig`): absent fields
take the destructuring defaults inside `isAllowedMemory`. -/
structure RateLimiterCfg where
  maxStoreSize : Option ℕ
  cleanupInterval : Option ℕ
  enablePerKeyStats : Option Bool
  maxBatchCleanup : Option ℕ

deriving DecidableEq, Repr

/-- The all-absent configuration object `{}`. -/
def emptyRateLimiterCfg : RateLimiterCfg := ⟨none, none, none, none⟩

/-- The per-key stats update on an allowed request. -/
def bumpHit (enabled : Bool) (s : FwState) (k : String) : FwState :=
  if enabled then
    let prev := (mapGet s.perKeyStats k).getD (0, 0)
    { s with perKeyStats := mapSet s.perKeyStats k (prev.1 + 1, prev.2) }
  else s

/-- The per-key stats update on a rejected request. -/
def bumpRejection (enabled : Bool) (s : FwState) (k : String) : FwState :=
  if enabled then
    let prev := (mapGet s.perKeyStats k).getD (0, 0)
    { s with perKeyStats := mapSet s.perKeyStats k (prev.1, prev.2 + 1) }
  else s

/-- JS `Number.MAX_SAFE_INTEGER`. -/
def maxSafeInteger : ℤ := 9007199254740991

/-- `isAllowedMemory` from `memoryStore.ts`, the fixed-window check-and-consume:
validate inputs, bump `callCount`, run the on-demand and periodic reclamation
passes, enforce the memory cap, then resolve the key's record exactly as the
source does.  The `limit` parameter is the JS number the call receives (the
verified claims instantiate it with a natural number). -/
def isAllowedMemory (key : String) (limit : ℤ) (windowInSeconds : ℤ)
    (cfg : RateLimiterCfg) (now : ℤ) (s : FwState) :
    Except String Bool × FwState :=
  if trimmedEmpty key then (.error "Invalid key", s)
  else if limit ≤ 0 ∨ windowInSeconds ≤ 0 then
    (.error "Invalid limit or windowInSeconds", s)
  else if maxSafeInteger < windowInSeconds * 1000 then
    (.error "Window too large for safe expiration", s)
  else
    let maxStoreSize := cfg.maxStoreSize.getD 1000000
    let cleanupInterval := cfg.cleanupInterval.getD 1000
    let enable := cfg.enablePerKeyStats.getD false
    let maxBatch := cfg.maxBatchCleanup.getD 1000
    let s0 : FwState := { s with callCount := s.callCount + 1 }
    let s1 := reclaim now maxBatch s0
    let s2 :=
      if s1.callCount % cleanupInterval = 0 ∧ s1.heap ≠ [] then
        reclaim (now - windowInSeconds * 1000) maxBatch s1
      else s1
    let s3 := enforceCap maxStoreSize s2.lru.length s2
    match mapGet s3.store key with
    | none =>
      let expiresAt := now + windowInSeconds * 1000
      let s4 := addLruNode s3 key
      let s5 : FwState :=
        { s4 with store := mapSet s4.store key ⟨1, expiresAt⟩,
                  heap := heapPush s4.heap ⟨key, expiresAt⟩,
                  hits := s4.hits + 1 }
      (.ok true, bumpHit enable s5 key)
    | some entry =>
      let s4 := moveToFront s3 key
      if entry.expiresAt ≤ now then
        let expiresAt := now + windowInSeconds * 1000
        let s5 : FwState :=
          { s4 with store := mapSet s4.store key ⟨1, expiresAt⟩,
                    heap := heapPush s4.heap ⟨key, expiresAt⟩,
                    hits := s4.hits + 1 }
        (.ok true, bumpHit enable s5 key)
      else if (entry.count : ℤ) < limit then
        let s5 : FwState :=
          { s4 with store := mapSet s4.store key ⟨entry.count + 1, entry.expiresAt⟩,
                    hits := s4.hits + 1 }
        (.ok true, bumpHit enable s5 key)
      else
        (.ok false, bumpRejection enable { s4 with rejections := s4.rejections + 1 } key)

/-- Strategy-level configuration shared by the three strategy classes: the
static numeric `limit`, `windowInSeconds`, and the optional `limiterConfig`.
Function-valued (adaptive) limits are outside the scope of the verified
claims and are not modelled; `getLimit` then returns the static value. -/
structure StratConfig where
  limit : ℤ
  windowInSeconds : ℤ
  limiterConfig : Option RateLimiterCfg

deriving DecidableEq, Repr

/-- `FixedWindowStrategy.isAllowed`: first its own capacity loop
(`maxEntries = limiterConfig?.maxStoreSize || 1000000`), then delegate to
`isAllowedMemory` (whose `config` parameter defaults to `{}` when
`limiterConfig` is absent). -/
def fwStrategyIsAllowed (cfg : StratConfig) (key : String) (now : ℤ)
    (s : FwState) : Except String Bool × FwState :=
  let maxEntries := orDefaultNat (cfg.limiterConfig.bind (·.maxStoreSize)) 1000000
  let s1 := enforceCap maxEntries s.lru.length s
  isAllowedMemory key cfg.limit cfg.windowInSeconds
    (cfg.limiterConfig.getD emptyRateLimiterCfg) now s1

/-- The `{remaining, resetAt, limit}` record returned by `getState`, generic in
the number type (`ℤ` for the fixed- and sliding-window strategies, `ℚ` for the
token bucket whose fields are fractional). -/
structure RateLimitState (α : Type) where
  remaining : α
  resetAt : α
  limit : α

deriving DecidableEq, Repr

/-- `FixedWindowStrategy.getState`: the documented placeholder that reads and
writes nothing and reports zero remaining quota. -/
def fwGetState (cfg : StratConfig) (s : FwState) : RateLimitState ℤ × FwState :=
  (⟨0, 0, cfg.limit⟩, s)

/-- Run a sequence of `(key, time)` calls through `fwStrategyIsAllowed`,
collecting the per-call results. -/
def fwRunPairs (cfg : StratConfig) :
    List (String × ℤ) → FwState → List (Except String Bool) × FwState
  | [], s => ([], s)
  | (k, t) :: rest, s =>
    let r := fwStrategyIsAllowed cfg k t s
    let tail := fwRunPairs cfg rest r.2
    (r.1 :: tail.1, tail.2)

/-- Per-key record of the sliding-window store (`SlidingWindowData`): the live
hit timestamps and the `expiresAt` field set once at creation. -/
structure SwEntry where
  timestamps : List ℤ
  expiresAt : ℤ

deriving DecidableEq, Repr

/-- The module-level `slidingWindowStore` map. -/
abbrev SwStore : Type := List (String × SwEntry)

/-- The `while (store.size >= maxEntries) delete firstKey` loop shared by the
sliding-window and token-bucket strategies: evict the earliest-inserted key
(head of the map's insertion order).  `fuel` is called with the current map
size, a bound on the iterations; when `maxEntries = 0` the JS loop would spin
forever on an empty map, and the model stops there. -/
def evictOldest {α : Type} (maxEntries : ℕ) : ℕ → List (String × α) → List (String × α)
  | 0, m => m
  | f + 1, m =>
    if maxEntries ≤ m.length then
      match m with
      | [] => []
      | _ :: rest => evictOldest maxEntries f rest
    else m

/-- `SlidingWindowStrategy.isAllowed`: enforce `maxEntries`, create the entry
if absent (`expiresAt = now + windowMs`), discard timestamps `≤ now − windowMs`
(the in-place `filter` assignment happens on the reject path too), then append
`now` and allow iff the remaining count is below the limit. -/
def swIsAllowed (cfg : StratConfig) (key : String) (now : ℤ) (m : SwStore) :
    Bool × SwStore :=
  let windowMs := cfg.windowInSeconds * 1000
  let maxEntries := orDefaultNat (cfg.limiterConfig.bind (·.maxStoreSize)) 1000000
  let m1 := evictOldest maxEntries m.length m
  let windowStart := now - windowMs
  let entry := (mapGet m1 key).getD ⟨[], now + windowMs⟩
  let m2 := if (mapGet m1 key).isNone then mapSet m1 key ⟨[], now + windowMs⟩ else m1
  let kept := entry.timestamps.filter (fun ts => windowStart < ts)
  if (kept.length : ℤ) < cfg.limit then
    (true, mapSet m2 key ⟨kept ++ [now], entry.expiresAt⟩)
  else
    (false, mapSet m2 key ⟨kept, entry.expiresAt⟩)

/-- `SlidingWindowStrategy.getState`: reports remaining quota and the time the
oldest live timestamp leaves the window; note that it assigns the filtered
timestamp list back into the stored entry, so it returns a (mutated)
post-state. -/
def swGetState (cfg : StratConfig) (key : String) (now : ℤ) (m : SwStore) :
    RateLimitState ℤ × SwStore :=
  let windowMs := cfg.windowInSeconds * 1000
  let windowStart := now - windowMs
  match mapGet m key with
  | none => (⟨cfg.limit, now + windowMs, cfg.limit⟩, m)
  | some entry =>
    let kept := entry.timestamps.filter (fun ts => windowStart < ts)
    let resetAt :=
      match kept.head? with
      | some first => first + windowMs
      | none => now + windowMs
    (⟨max 0 (cfg.limit - kept.length), resetAt, cfg.limit⟩,
     mapSet m key ⟨kept, entry.expiresAt⟩)

/-- Run a sequence of `(key, time)` sliding-window calls, collecting the
per-call decisions. -/
def swRunPairs (cfg : StratConfig) :
    List (String × ℤ) → SwStore → List Bool × SwStore
  | [], m => ([], m)
  | (k, t) :: rest, m =>
    let r := swIsAllowed cfg k t m
    let tail := swRunPairs cfg rest r.2
    (r.1 :: tail.1, tail.2)

/-- Per-key record of the token bucket (`TokenBucketData`): fractional token
balance, last refill time, capacity and refill rate in tokens per
millisecond. -/
structure TbEntry where
  tokens : ℚ
  lastRefill : ℤ
  capacity : ℚ
  refillRate : ℚ

deriving DecidableEq, Repr

/-- The module-level `tokenBucketStore` map. -/
abbrev TbStore : Type := List (String × TbEntry)

/-- `TokenBucketStrategy.isAllowed`: enforce `maxEntries`; a fresh key starts
with a full bucket (`tokens = limit`, `refillRate = limit / (windowInSeconds *
1000)`); then add `elapsed × refillRate` tokens capped at the capacity, set
`lastRefill := now`, and consume one token iff at least one is available. -/
def tbIsAllowed (cfg : StratConfig) (key : String) (now : ℤ) (m : TbStore) :
    Bool × TbStore :=
  let maxEntries := orDefaultNat (cfg.limiterConfig.bind (·.maxStoreSize)) 1000000
  let m1 := evictOldest maxEntries m.length m
  let limit : ℚ := (cfg.limit : ℚ)
  let fresh : TbEntry :=
    ⟨limit, now, limit, limit / ((cfg.windowInSeconds : ℚ) * 1000)⟩
  let entry := (mapGet m1 key).getD fresh
  let m2 := if (mapGet m1 key).isNone then mapSet m1 key fresh else m1
  let tokens := min entry.capacity (entry.tokens + ((now - entry.lastRefill : ℤ) : ℚ) * entry.refillRate)
  if 1 ≤ tokens then
    (true, mapSet m2 key ⟨tokens - 1, now, entry.capacity, entry.refillRate⟩)
  else
    (false, mapSet m2 key ⟨tokens, now, entry.capacity, entry.refillRate⟩)

/-- `TokenBucketStrategy.getState`: the same refill computation without any
store write (the returned store is the input store). -/
def tbGetState (cfg : StratConfig) (key : String) (now : ℤ) (m : TbStore) :
    RateLimitState ℚ × TbStore :=
  let limit : ℚ := (cfg.limit : ℚ)
  match mapGet m key with
  | none =>
    (⟨limit, (now : ℚ) + limit / (limit / ((cfg.windowInSeconds : ℚ) * 1000)), limit⟩, m)
  | some entry =>
    let current := min entry.capacity
      (entry.tokens + ((now - entry.lastRefill : ℤ) : ℚ) * entry.refillRate)
    (⟨(Rat.floor current : ℤ), (now : ℚ) + (limit - current) / entry.refillRate, limit⟩, m)

/-- Run a sequence of `(key, time)` token-bucket calls. -/
def tbRunPairs (cfg : StratConfig) :
    List (String × ℤ) → TbStore → List Bool × TbStore
  | [], m => ([], m)
  | (k, t) :: rest, m =>
    let r := tbIsAllowed cfg k t m
    let tail := tbRunPairs cfg rest r.2
    (r.1 :: tail.1, tail.2)

/-- The aggregate counters of `RateLimiter` (`this.stats`). -/
structure RlStats where
  totalRequests : ℕ
  hits : ℕ
  rejections : ℕ

deriving DecidableEq, Repr

/-- A user-supplied hook is modelled by its observable behaviour towards the
limiter: `none` = hook not configured, `some false` = hook returns normally,
`some true` = hook throws when invoked. -/
abbrev HookSpec : Type := Option Bool

/-- The hook/mode part of a `RateLimiter` configuration. -/
structure HookCfg where
  onPass : HookSpec
  onLimitReached : HookSpec
  onError : HookSpec
  dryRun : Bool
  silent : Bool

deriving DecidableEq, Repr

/-- A configuration with no hooks and all modes off. -/
def noHooks : HookCfg := ⟨none, none, none, false, false⟩

/-- `RateLimiter.callHook`: invoke the hook inside `try/catch`; on a throw,
invoke `config.onError` (not itself guarded), whose own exception escapes the
method.  Returns `.error` exactly when an exception escapes `callHook`. -/
def callHook (hook onErr : HookSpec) : Except String Unit :=
  match hook with
  | none => .ok ()
  | some false => .ok ()
  | some true =>
    match onErr with
    | none => .ok ()
    | some false => .ok ()
    | some true => .error "hook"

/-- `RateLimiter.isAllowed`, generic over the wrapped strategy (a state
transformer from key and time to a decision): bump `totalRequests` first; ask
the strategy; on success bump `hits`/`rejections`, fire `onPass` or
`onLimitReached` through `callHook`; the outer `catch` fires `onError` and
rethrows.  `dryRun` forces the returned value to `true`; `silent` returns the
real decision. -/
def rlIsAllowed {σ : Type} (strat : String → ℤ → σ → Except String Bool × σ)
    (hc : HookCfg) (key : String) (now : ℤ) (st : RlStats × σ) :
    Except String Bool × (RlStats × σ) :=
  let stats0 := { st.1 with totalRequests := st.1.totalRequests + 1 }
  match strat key now st.2 with
  | (.error e, s2) =>
    match callHook hc.onError hc.onError with
    | .error e2 => (.error e2, (stats0, s2))
    | .ok _ => (.error e, (stats0, s2))
  | (.ok allowed, s2) =>
    let stats1 :=
      if allowed then { stats0 with hits := stats0.hits + 1 }
      else { stats0 with rejections := stats0.rejections + 1 }
    match callHook (if allowed then hc.onPass else hc.onLimitReached) hc.onError with
    | .error e2 =>
      match callHook hc.onError hc.onError with
      | .error e3 => (.error e3, (stats1, s2))
      | .ok _ => (.error e2, (stats1, s2))
    | .ok _ =>
      if hc.dryRun then (.ok true, (stats1, s2))
      else if hc.silent then (.ok allowed, (stats1, s2))
      else (.ok allowed, (stats1, s2))

/-- `RateLimiter.getStats` (the strategy-independent part): the aggregate
counters plus the `activeKeys` placeholder that is always `0` in the source. -/
def rlGetStats (stats : RlStats) : RlStats × ℕ := (stats, 0)

/-- Run a sequence of `(key, time)` calls through `RateLimiter.isAllowed`. -/
def rlRun {σ : Type} (strat : String → ℤ → σ → Except String Bool × σ)
    (hc : HookCfg) :
    List (String × ℤ) → RlStats × σ → List (Except String Bool) × (RlStats × σ)
  | [], st => ([], st)
  | (k, t) :: rest, st =>
    let r := rlIsAllowed strat hc k t st
    let tail := rlRun strat hc rest r.2
    (r.1 :: tail.1, tail.2)

/-- A `RateLimiter` wired to the fixed-window strategy, as built by
`createStrategy` for `strategy: "fixed"`. -/
def fwStrat (cfg : StratConfig) : String → ℤ → FwState → Except String Bool × FwState :=
  fun k t s => fwStrategyIsAllowed cfg k t s

/-- The recognized fields of the public `LimiterConfig` before defaulting: a
missing JS property is `none`.  Function-valued limits and the key-generator
fields are outside the scope of the verified claims; `keyType` and `strategy`
are carried as strings exactly as validated. -/
structure PartialLimiterConfig where
  keyType : Option String
  limit : Option ℤ
  windowInSeconds : Option ℤ
  strategy : Option String
  debug : Option Bool
  dryRun : Option Bool
  silent : Option Bool
  limiterConfig : Option RateLimiterCfg

deriving DecidableEq, Repr

/-- The empty configuration object `{}`. -/
def emptyPartialConfig : PartialLimiterConfig :=
  ⟨none, none, none, none, none, none, none, none⟩

/-- A fully-defaulted `LimiterConfig` as produced by `applyDefaults`. -/
structure LimiterConfigFull where
  keyType : String
  limit : ℤ
  windowInSeconds : ℤ
  strategy : String
  debug : Bool
  dryRun : Bool
  silent : Bool
  limiterConfig : RateLimiterCfg

deriving DecidableEq, Repr

/-- `applyDefaults` from `configDefaults.ts`: the defaults object is spread
first and `...config` last, so any property present on `config` wins — in
particular a user-supplied `limiterConfig` replaces the merged one wholesale,
while an absent `limiterConfig` yields the four store defaults. -/
def applyDefaults (c : PartialLimiterConfig) : LimiterConfigFull :=
  { keyType := c.keyType.getD "ip",
    limit := c.limit.getD 100,
    windowInSeconds := c.windowInSeconds.getD 60,
    strategy := c.strategy.getD "fixed",
    debug := c.debug.getD false,
    dryRun := c.dryRun.getD false,
    silent := c.silent.getD false,
    limiterConfig := c.limiterConfig.getD ⟨some 1000000, some 1000, some false, some 1000⟩ }

/-- `validateConfig` from `configValidator.ts`, restricted to numeric limits
(function-valued limits are accepted by the source and out of scope here).
Each failed check contributes its field name; JS truthiness makes a zero
`maxStoreSize`/`cleanupInterval` skip its check, and sizes are nonnegative
naturals here, so those two checks cannot fire in the model. -/
def validateConfig (c : LimiterConfigFull) : List String :=
  (if c.limit ≤ 0 then ["limit"] else []) ++
  (if c.windowInSeconds ≤ 0 then ["windowInSeconds"] else []) ++
  (if c.strategy ≠ "" ∧ c.strategy ∉ ["fixed", "sliding", "tokenBucket"] then
    ["strategy"] else []) ++
  (if c.keyType ≠ "" ∧ c.keyType ∉ ["ip", "user-agent", "path", "custom"] ∧
      ¬ c.keyType.startsWith "header:" then
    ["keyType"] else []) ++
  ([] : List String)

/-- `throwIfInvalid` followed by the constructor body: defaulting happens
first, validation second; a nonempty error list throws. -/
def rateLimiterConstruct (c : PartialLimiterConfig) : Except String LimiterConfigFull :=
  let full := applyDefaults c
  if validateConfig full = [] then .ok full
  else .error "Invalid rate limiter configuration"

/-- `true` exactly for the calls that ended in an error. -/
def isErr (r : Except String Bool) : Bool :=
  match r with
  | .error _ => true
  | .ok _ => false

/-- The consistency invariant relating the store map and the recency list of
the fixed-window state: no duplicate keys anywhere, and every stored key has an
LRU node. -/
def fwConsistent (s : FwState) : Prop :=
  s.lru.Nodup ∧ (s.store.map Prod.fst).Nodup ∧ ∀ kv ∈ s.store, kv.1 ∈ s.lru

/-- The single-key canonical fixed-window state: one record for `k` with
`count = c` and expiry `e`, one heap node, `k` alone in the recency list, and
the given counters. -/
def fwCanonSt (k : String) (e : ℤ) (c hh rr nn : ℕ) : FwState :=
  ⟨[(k, ⟨c, e⟩)], [⟨k, e⟩], hh, rr, nn, [k], []⟩

/-- Per-call results of a single-key fixed-window burst, as a recursion on the
running count: the call is allowed iff the count is still below the limit. -/
def fwExpected (L : ℤ) : ℕ → ℕ → List (Except String Bool)
  | _, 0 => []
  | c, n + 1 =>
    .ok (decide ((c : ℤ) < L)) :: fwExpected L (if (c : ℤ) < L then c + 1 else c) n

/-- The stored count after `n` further single-key calls starting from count
`c`. -/
def fwCountAfter (L : ℤ) : ℕ → ℕ → ℕ
  | c, 0 => c
  | c, n + 1 => fwCountAfter L (if (c : ℤ) < L then c + 1 else c) n

/-- The per-call decisions of a single-key sliding-window burst, computed at
the specification level: the call at `t` is allowed iff fewer than `L` of the
previously allowed timestamps lie strictly inside `(t − W, t]`. -/
def swDecisions (L W : ℤ) : List ℤ → List ℤ → List Bool
  | _, [] => []
  | acc, t :: rest =>
    if ((acc.filter (fun u => t - W < u)).length : ℤ) < L
    then true :: swDecisions L W (acc ++ [t]) rest
    else false :: swDecisions L W acc rest

/-- The accumulated list of allowed-call timestamps of a single-key
sliding-window burst. -/
def swAllowedTimes (L W : ℤ) : List ℤ → List ℤ → List ℤ
  | acc, [] => acc
  | acc, t :: rest =>
    if ((acc.filter (fun u => t - W < u)).length : ℤ) < L
    then swAllowedTimes L W (acc ++ [t]) rest
    else swAllowedTimes L W acc rest

/-- Any `L + 1` consecutive (by rank) allowed timestamps span at least `W`:
position `i` and position `i + L` of the allowed-times list are at least `W`
apart. -/
def spacedAtDistance (L : ℕ) (W : ℤ) (l : List ℤ) : Prop :=
  ∀ i, i + L < l.length → l.getD i 0 + W ≤ l.getD (i + L) 0

/-- The timestamps of the allowed calls, extracted from a list of call times
and the matching list of per-call decisions. -/
def allowedTimes (times : List ℤ) (ds : List Bool) : List ℤ :=
  ((times.zip ds).filter (fun p => p.2)).map (fun p => p.1)

/-- Decisions and final balance of a same-instant token-bucket burst, as a
recursion on the balance: each call consumes one token while at least one is
available. -/
def tbExpected : ℕ → ℚ → List Bool × ℚ
  | 0, v => ([], v)
  | n + 1, v =>
    if 1 ≤ v then
      let r := tbExpected n (v - 1)
      (true :: r.1, r.2)
    else
      let r := tbExpected n v
      (false :: r.1, r.2)

/-- The strategy-level operations whose outcomes claim C9 protects: a decision
call or a state read, each carrying its key and time. -/
inductive SwOp where
  | callOp (k : String) (t : ℤ)
  | stateOp (k : String) (t : ℤ)

deriving DecidableEq, Repr

/-- The time at which an operation is issued. -/
def swOpTime : SwOp → ℤ
  | .callOp _ t => t
  | .stateOp _ t => t

/-- Observable outcomes of a sequence of sliding-window operations. -/
def swObs (cfg : StratConfig) : List SwOp → SwStore → List (Bool ⊕ RateLimitState ℤ)
  | [], _ => []
  | .callOp k t :: rest, m =>
    let r := swIsAllowed cfg k t m
    .inl r.1 :: swObs cfg rest r.2
  | .stateOp k t :: rest, m =>
    let r := swGetState cfg k t m
    .inr r.1 :: swObs cfg rest r.2

/-- Two timestamp lists are indistinguishable for every window cutoff at or
after `c`. -/
def tsEquiv (c : ℤ) (l1 l2 : List ℤ) : Prop :=
  ∀ x : ℤ, c ≤ x → l1.filter (fun u => x < u) = l2.filter (fun u => x < u)

/-- Store entries with the same key and expiry whose timestamp lists are
indistinguishable from cutoff `c` on. -/
def entryEquiv (c : ℤ) (p q : String × SwEntry) : Prop :=
  p.1 = q.1 ∧ p.2.expiresAt = q.2.expiresAt ∧ tsEquiv c p.2.timestamps q.2.timestamps

/-- Pointwise store equivalence (same keys in the same insertion order). -/
def swEquiv (c : ℤ) (m1 m2 : SwStore) : Prop := List.Forall₂ (entryEquiv c) m1 m2

lemma callHook_ok (hook onErr : HookSpec) (h : onErr ≠ some true) :
    callHook hook onErr = .ok () := by
  cases hook with
  | none => rfl
  | some b =>
    cases b with
    | false => rfl
    | true =>
      cases onErr with
      | none => rfl
      | some b2 => cases b2 with
        | false => rfl
        | true => exact absurd rfl h

lemma rlIsAllowed_stats {σ : Type}
    (strat : String → ℤ → σ → Except String Bool × σ) (hc : HookCfg)
    (key : String) (now : ℤ) (st : RlStats × σ) :
    let r := rlIsAllowed strat hc key now st
    r.2.1.totalRequests = st.1.totalRequests + 1 ∧
    (isErr r.1 = false →
      r.2.1.hits + r.2.1.rejections = st.1.hits + st.1.rejections + 1) := by
  unfold rlIsAllowed
  rcases hs : strat key now st.2 with ⟨res, s2⟩
  cases res with
  | error e =>
    rcases hch : callHook hc.onError hc.onError with e2 | u <;>
      simp [hs, hch, isErr]
  | ok allowed =>
    cases allowed with
    | false =>
      rcases hch : callHook hc.onLimitReached hc.onError with e2 | u
      · rcases hch2 : callHook hc.onError hc.onError with e3 | u2 <;>
          simp [hs, hch, hch2, isErr]
      · by_cases hd : hc.dryRun = true <;> simp [hs, hch, isErr, hd] <;> omega
    | true =>
      rcases hch : callHook hc.onPass hc.onError with e2 | u
      · rcases hch2 : callHook hc.onError hc.onError with e3 | u2 <;>
          simp [hs, hch, hch2, isErr]
      · by_cases hd : hc.dryRun = true <;> simp [hs, hch, isErr, hd] <;> omega

lemma rlRun_balance {σ : Type}
    (strat : String → ℤ → σ → Except String Bool × σ) (hc : HookCfg) :
    ∀ (trace : List (String × ℤ)) (st : RlStats × σ),
    (∀ r ∈ (rlRun strat hc trace st).1, isErr r = false) →
    (rlRun strat hc trace st).2.1.totalRequests + st.1.hits + st.1.rejections
      = (rlRun strat hc trace st).2.1.hits + (rlRun strat hc trace st).2.1.rejections
        + st.1.totalRequests := by
  intro trace
  induction trace with
  | nil => intro st _; simp [rlRun]; omega
  | cons p rest ih =>
    rcases p with ⟨k, t⟩
    intro st hok
    have hstep := rlIsAllowed_stats strat hc k t st
    rcases hstep with ⟨hT, hHR⟩
    have hhead : isErr (rlIsAllowed strat hc k t st).1 = false := by
      apply hok
      simp [rlRun]
    have htail := ih (rlIsAllowed strat hc k t st).2 (by
      intro r hr
      apply hok
      simp [rlRun]
      exact Or.inr hr)
    have hHR2 := hHR hhead
    simp only [rlRun] at htail ⊢
    omega

/-- Claim C6 counterexample: with the fixed-window strategy and default config,
a single `isAllowed("")` call throws `Invalid key`; `totalRequests` was already
incremented but neither `hits` nor `rejections` was, so
`totalRequests = hits + rejections` fails after a call that ends in an
error. -/
theorem C6_counterexample :
    (rlRun (fwStrat ⟨100, 60, none⟩) noHooks [("", 0)] (⟨0, 0, 0⟩, fwInit)).2.1.totalRequests
      ≠ (rlRun (fwStrat ⟨100, 60, none⟩) noHooks [("", 0)] (⟨0, 0, 0⟩, fwInit)).2.1.hits
        + (rlRun (fwStrat ⟨100, 60, none⟩) noHooks [("", 0)] (⟨0, 0, 0⟩, fwInit)).2.1.rejections := by
  decide

/-- Claim C6 (amended): starting from a fresh limiter, after any sequence of
`RateLimiter.isAllowed` calls (any strategy, any hook/mode configuration) in
which no call ends in an error, the aggregate counters satisfy
`totalRequests = hits + rejections`.  A call that ends in an error increments
`totalRequests` without touching `hits` or `rejections`, breaking the
equality. -/
theorem C6_stats_balance {σ : Type}
    (strat : String → ℤ → σ → Except String Bool × σ) (hc : HookCfg)
    (trace : List (String × ℤ)) (s0 : σ)
    (hok : ∀ r ∈ (rlRun strat hc trace (⟨0, 0, 0⟩, s0)).1, isErr r = false) :
    (rlRun strat hc trace (⟨0, 0, 0⟩, s0)).2.1.totalRequests
      = (rlRun strat hc trace (⟨0, 0, 0⟩, s0)).2.1.hits
        + (rlRun strat hc trace (⟨0, 0, 0⟩, s0)).2.1.rejections := by
  have h := rlRun_balance strat hc trace (⟨0, 0, 0⟩, s0) hok
  simpa using h

/-- Witness for C6: two valid fixed-window calls complete without error and the
counters balance. -/
theorem C6_stats_balance_witness :
    (rlRun (fwStrat ⟨1, 60, none⟩) noHooks [("a", 0), ("a", 1)] (⟨0, 0, 0⟩, fwInit)).2.1.totalRequests
      = (rlRun (fwStrat ⟨1, 60, none⟩) noHooks [("a", 0), ("a", 1)] (⟨0, 0, 0⟩, fwInit)).2.1.hits
        + (rlRun (fwStrat ⟨1, 60, none⟩) noHooks [("a", 0), ("a", 1)] (⟨0, 0, 0⟩, fwInit)).2.1.rejections :=
  C6_stats_balance (fwStrat ⟨1, 60, none⟩) noHooks [("a", 0), ("a", 1)] fwInit (by decide)

/-- Claim C8 counterexample: with an `onPass` hook that throws and an `onError`
hook that also throws, a call whose strategy allowed the request does not
return the boolean decision — the hook exception escapes `isAllowed` as an
error. -/
theorem C8_counterexample :
    (rlIsAllowed (fun (_ : String) (_ : ℤ) (s : Unit) => (.ok true, s))
        ⟨some true, none, some true, false, false⟩ "k" 0 (⟨0, 0, 0⟩, ())).1
      = .error "hook" := by
  decide

/-- Claim C8 (amended): provided the user-supplied `onError` hook does not
itself throw, exceptions thrown by `onPass`/`onLimitReached` are contained:
`isAllowed` behaves exactly as if those hooks were absent (same returned value,
same stats, same strategy state), and whenever the strategy produced a boolean
decision the caller receives it (`true` under `dryRun`).  If `onError` throws,
the error escapes to the caller. -/
theorem C8_hook_containment {σ : Type}
    (strat : String → ℤ → σ → Except String Bool × σ) (hc : HookCfg)
    (hOnErr : hc.onError ≠ some true) (key : String) (now : ℤ) (st : RlStats × σ) :
    rlIsAllowed strat hc key now st
      = rlIsAllowed strat { hc with onPass := none, onLimitReached := none } key now st
    ∧ ∀ b s2, strat key now st.2 = (.ok b, s2) →
        (rlIsAllowed strat hc key now st).1 = .ok (if hc.dryRun then true else b) := by
  constructor
  · unfold rlIsAllowed
    rcases hs : strat key now st.2 with ⟨res, s2⟩
    cases res with
    | error e => simp [hs]
    | ok allowed =>
      cases allowed with
      | false => simp [hs, callHook_ok hc.onLimitReached hc.onError hOnErr, callHook_ok none hc.onError hOnErr]
      | true => simp [hs, callHook_ok hc.onPass hc.onError hOnErr, callHook_ok none hc.onError hOnErr]
  · intro b s2 hs
    unfold rlIsAllowed
    cases b with
    | false =>
      by_cases hd : hc.dryRun = true <;>
        simp [hs, callHook_ok hc.onLimitReached hc.onError hOnErr, hd]
    | true =>
      by_cases hd : hc.dryRun = true <;>
        simp [hs, callHook_ok hc.onPass hc.onError hOnErr, hd]

/-- Witness for C8: a throwing `onPass` with a present, well-behaved `onError`;
the decision of a strategy that allows is returned unchanged. -/
theorem C8_hook_containment_witness :
    (rlIsAllowed (fun (_ : String) (_ : ℤ) (s : Unit) => (.ok true, s))
        ⟨some true, some true, some false, false, false⟩ "k" 0 (⟨0, 0, 0⟩, ())
      = rlIsAllowed (fun (_ : String) (_ : ℤ) (s : Unit) => (.ok true, s))
        ⟨none, none, some false, false, false⟩ "k" 0 (⟨0, 0, 0⟩, ()))
    ∧ (rlIsAllowed (fun (_ : String) (_ : ℤ) (s : Unit) => (.ok true, s))
        ⟨some true, some true, some false, false, false⟩ "k" 0 (⟨0, 0, 0⟩, ())).1 = .ok true := by
  have h := C8_hook_containment (fun (_ : String) (_ : ℤ) (s : Unit) => (.ok true, s))
    ⟨some true, some true, some false, false, false⟩ (by decide) "k" 0 (⟨0, 0, 0⟩, ())
  exact ⟨h.1, h.2 true () rfl⟩

/-- Claim C7 counterexample: the sliding-window strategy performs no key
validation — a call with the empty key returns normally (it is allowed) and
mutates the store by creating a record for `""`. -/
theorem C7_counterexample :
    (swIsAllowed ⟨5, 60, none⟩ "" 0 []).1 = true
    ∧ (swIsAllowed ⟨5, 60, none⟩ "" 0 []).2 ≠ ([] : SwStore) := by
  decide

/-- Claim C7 (amended): only the fixed-window memory store validates keys:
`isAllowedMemory` called with a key whose trim is empty fails synchronously
with `Invalid key` and returns the state entirely unchanged (the
`FixedWindowStrategy` wrapper runs its key-independent capacity loop before
delegating; the sliding-window and token-bucket strategies accept any string
key, mutating state normally).  Non-string keys are outside the typed
embedding. -/
theorem C7_invalid_key_no_mutation (key : String) (limit windowInSeconds : ℤ)
    (cfg : RateLimiterCfg) (now : ℤ) (s : FwState)
    (hkey : trimmedEmpty key = true) :
    isAllowedMemory key limit windowInSeconds cfg now s = (.error "Invalid key", s)
    ∧ ∀ scfg : StratConfig,
        fwStrategyIsAllowed scfg key now s
          = (.error "Invalid key",
             enforceCap (orDefaultNat (scfg.limiterConfig.bind (·.maxStoreSize)) 1000000)
               s.lru.length s) := by
  constructor
  · unfold isAllowedMemory
    simp [hkey]
  · intro scfg
    unfold fwStrategyIsAllowed isAllowedMemory
    simp [hkey]

/-- Witness for C7: the empty key on a nonempty store. -/
theorem C7_invalid_key_no_mutation_witness :
    isAllowedMemory "" 5 60 emptyRateLimiterCfg 7
        ⟨[("a", ⟨1, 100⟩)], [⟨"a", 100⟩], 1, 0, 1, ["a"], []⟩
      = (.error "Invalid key", ⟨[("a", ⟨1, 100⟩)], [⟨"a", 100⟩], 1, 0, 1, ["a"], []⟩) :=
  (C7_invalid_key_no_mutation "" 5 60 emptyRateLimiterCfg 7
    ⟨[("a", ⟨1, 100⟩)], [⟨"a", 100⟩], 1, 0, 1, ["a"], []⟩ (by decide)).1

/-- Claim C10: an empty configuration object is defaulted to
`limit 100, windowInSeconds 60, strategy "fixed"` (plus the documented store
defaults), passes validation, and the constructor succeeds; the resulting full
configuration coincides with the one obtained from explicitly passing those
three values, so the two limiters behave identically. -/
theorem C10_empty_config_defaults :
    rateLimiterConstruct emptyPartialConfig = .ok (applyDefaults emptyPartialConfig)
    ∧ validateConfig (applyDefaults emptyPartialConfig) = []
    ∧ (applyDefaults emptyPartialConfig).limit = 100
    ∧ (applyDefaults emptyPartialConfig).windowInSeconds = 60
    ∧ (applyDefaults emptyPartialConfig).strategy = "fixed"
    ∧ applyDefaults emptyPartialConfig
        = applyDefaults ⟨none, some 100, some 60, some "fixed", none, none, none, none⟩ := by
  decide

lemma mapDelete_subset {α : Type} (m : List (String × α)) (k : String) :
    ∀ kv ∈ mapDelete m k, kv ∈ m := by
  induction m with
  | nil => simp [mapDelete]
  | cons p rest ih =>
    intro kv
    by_cases h : p.1 = k <;> simp [mapDelete, h] <;> intro hm
    · exact Or.inr hm
    · rcases hm with h1 | h1
      · exact Or.inl h1
      · exact Or.inr (ih kv h1)

lemma mapDelete_keys_sublist {α : Type} (m : List (String × α)) (k : String) :
    ((mapDelete m k).map Prod.fst).Sublist (m.map Prod.fst) := by
  induction m with
  | nil => simp [mapDelete]
  | cons p rest ih =>
    by_cases h : p.1 = k
    · rw [show mapDelete (p :: rest) k = rest by simp [mapDelete, h]]
      simp only [List.map_cons]
      exact (List.Sublist.refl _).cons _
    · rw [show mapDelete (p :: rest) k = p :: mapDelete rest k by simp [mapDelete, h]]
      simp only [List.map_cons]
      exact ih.cons₂ _

lemma mapDelete_ne_of_nodup {α : Type} (m : List (String × α)) (k : String)
    (hnd : (m.map Prod.fst).Nodup) :
    ∀ kv ∈ mapDelete m k, kv.1 ≠ k := by
  induction m with
  | nil => simp [mapDelete]
  | cons p rest ih =>
    simp only [List.map_cons, List.nodup_cons] at hnd
    by_cases h : p.1 = k <;> simp only [mapDelete, h, if_true, if_false]
    · intro kv hm
      subst h
      intro hk
      exact hnd.1 (hk ▸ List.mem_map_of_mem Prod.fst hm)
    · intro kv hm
      rcases List.mem_cons.mp hm with h1 | h1
      · subst h1; exact h
      · exact ih hnd.2 kv h1

lemma removeKey_sublist (l : List String) (k : String) :
    (removeKey l k).Sublist l := by
  induction l with
  | nil => simp [removeKey]
  | cons x rest ih =>
    by_cases h : x = k
    · rw [show removeKey (x :: rest) k = rest by simp [removeKey, h]]
      exact (List.Sublist.refl _).cons _
    · rw [show removeKey (x :: rest) k = x :: removeKey rest k by simp [removeKey, h]]
      exact ih.cons₂ _

lemma mem_removeKey_of_ne (l : List String) (k x : String) (hx : x ∈ l)
    (hne : x ≠ k) : x ∈ removeKey l k := by
  induction l with
  | nil => simp at hx
  | cons y rest ih =>
    by_cases h : y = k
    · rw [show removeKey (y :: rest) k = rest by simp [removeKey, h]]
      rcases List.mem_cons.mp hx with h1 | h1
      · exact absurd (h1.trans h) hne
      · exact h1
    · rw [show removeKey (y :: rest) k = y :: removeKey rest k by simp [removeKey, h]]
      rcases List.mem_cons.mp hx with h1 | h1
      · exact h1 ▸ List.mem_cons_self _ _
      · exact List.mem_cons_of_mem _ (ih h1)

lemma fwConsistent_removeLruTail (s : FwState) (h : fwConsistent s) :
    fwConsistent (removeLruTail s) := by
  rcases h with ⟨hlru, hstore, hmem⟩
  unfold removeLruTail
  cases hlast : s.lru.getLast? with
  | none => exact ⟨hlru, hstore, hmem⟩
  | some k =>
    refine ⟨hlru.sublist (List.dropLast_sublist _), hstore.sublist (mapDelete_keys_sublist _ _), ?_⟩
    intro kv hkv
    have hne := mapDelete_ne_of_nodup s.store k hstore kv hkv
    have hmem2 := hmem kv (mapDelete_subset s.store k kv hkv)
    have hsplit : s.lru = s.lru.dropLast ++ [k] :=
      (List.dropLast_append_getLast? k hlast).symm
    rw [hsplit] at hmem2
    rcases List.mem_append.mp hmem2 with h1 | h1
    · exact h1
    · simp at h1
      exact absurd h1 hne

lemma fwConsistent_dropKey (s : FwState) (k : String) (h : fwConsistent s) :
    fwConsistent (dropKey s k) := by
  rcases h with ⟨hlru, hstore, hmem⟩
  refine ⟨hlru.sublist (removeKey_sublist _ _), hstore.sublist (mapDelete_keys_sublist _ _), ?_⟩
  intro kv hkv
  have hne := mapDelete_ne_of_nodup s.store k hstore kv hkv
  exact mem_removeKey_of_ne _ _ _ (hmem kv (mapDelete_subset s.store k kv hkv)) hne

lemma fwConsistent_reclaim (threshold : ℤ) :
    ∀ (b : ℕ) (s : FwState), fwConsistent s → fwConsistent (reclaim threshold b s) := by
  intro b
  induction b with
  | zero => intro s h; exact h
  | succ n ih =>
    intro s h
    unfold reclaim
    cases htop : s.heap.head? with
    | none => exact h
    | some top =>
      by_cases hexp : top.expiresAt ≤ threshold <;> simp only [hexp, if_true, if_false]
      · have h1 : fwConsistent { s with heap := (heapPop s.heap).2 } := h
        cases hget : mapGet ({ s with heap := (heapPop s.heap).2 } : FwState).store top.key with
        | none => simp only [hget]; exact ih _ h1
        | some cur =>
          simp only [hget]
          by_cases hauth : cur.expiresAt = top.expiresAt <;>
            simp only [hauth, if_true, if_false]
          · exact ih _ (fwConsistent_dropKey _ _ h1)
          · exact ih _ h1
      · exact h

lemma mapGet_none_iff {α : Type} (m : List (String × α)) (k : String) :
    mapGet m k = none ↔ k ∉ m.map Prod.fst := by
  induction m with
  | nil => simp [mapGet]
  | cons p rest ih =>
    by_cases h : p.1 = k
    · simp [mapGet, h]
    · rw [show mapGet (p :: rest) k = mapGet rest k by simp [mapGet, h], ih]
      simp only [List.map_cons, List.mem_cons]
      constructor
      · intro hn hor
        rcases hor with h1 | h1
        · exact h h1.symm
        · exact hn h1
      · intro hn h1
        exact hn (Or.inr h1)

lemma mapSet_length_of_none {α : Type} (m : List (String × α)) (k : String)
    (v : α) (h : mapGet m k = none) : (mapSet m k v).length = m.length + 1 := by
  induction m with
  | nil => simp [mapSet]
  | cons p rest ih =>
    by_cases hp : p.1 = k
    · simp [mapGet, hp] at h
    · simp only [mapGet, hp, if_false, ite_false] at h
      simp [mapSet, hp, ih h]

lemma mapSet_length_of_some {α : Type} (m : List (String × α)) (k : String)
    (v w : α) (h : mapGet m k = some w) : (mapSet m k v).length = m.length := by
  induction m with
  | nil => simp [mapGet] at h
  | cons p rest ih =>
    by_cases hp : p.1 = k
    · simp [mapSet, hp]
    · simp only [mapGet, hp, if_false, ite_false] at h
      simp [mapSet, hp, ih h]

lemma mapSet_length_le {α : Type} (m : List (String × α)) (k : String) (v : α) :
    (mapSet m k v).length ≤ m.length + 1 := by
  cases h : mapGet m k with
  | none => exact (mapSet_length_of_none m k v h).le
  | some w => rw [mapSet_length_of_some m k v w h]; omega

lemma removeLruTail_lru_length (s : FwState) (h : s.lru ≠ []) :
    (removeLruTail s).lru.length = s.lru.length - 1 := by
  unfold removeLruTail
  cases hget : s.lru.getLast? with
  | none => exact absurd (List.getLast?_eq_none_iff.mp hget) h
  | some k => simp [List.length_dropLast]

lemma fwConsistent_of_empty_lru (s : FwState) (h : fwConsistent s)
    (hlru : s.lru = []) : s.store = [] := by
  rcases h with ⟨_, _, hmem⟩
  cases hs : s.store with
  | nil => rfl
  | cons kv rest =>
    have := hmem kv (by rw [hs]; exact List.mem_cons_self _ _)
    rw [hlru] at this
    simp at this

lemma enforceCap_bound (M : ℕ) (hM : 1 ≤ M) :
    ∀ (f : ℕ) (s : FwState), fwConsistent s → s.lru.length ≤ f →
      (enforceCap M f s).store.length < M ∧ fwConsistent (enforceCap M f s) := by
  intro f
  induction f with
  | zero =>
    intro s hcons hf
    have hlru : s.lru = [] := List.length_eq_zero.mp (Nat.le_zero.mp hf)
    have hstore := fwConsistent_of_empty_lru s hcons hlru
    simpa [enforceCap, hstore] using ⟨hM, hcons⟩
  | succ n ih =>
    intro s hcons hf
    unfold enforceCap
    by_cases hlen : M ≤ s.store.length
    · rw [if_pos hlen]
      cases hlru : s.lru with
      | nil =>
        have hstore := fwConsistent_of_empty_lru s hcons hlru
        rw [hstore] at hlen
        simp at hlen
        exact (by omega : False).elim
      | cons a rest =>
        rw [if_neg (by simp)]
        apply ih
        · exact fwConsistent_removeLruTail s hcons
        · rw [removeLruTail_lru_length s (by rw [hlru]; simp)]
          omega
    · rw [if_neg hlen]
      exact ⟨by omega, hcons⟩

lemma evictOldest_bound {α : Type} (maxE : ℕ) (hE : 1 ≤ maxE) :
    ∀ (f : ℕ) (m : List (String × α)), m.length ≤ f →
      (evictOldest maxE f m).length < maxE := by
  intro f
  induction f with
  | zero =>
    intro m hf
    have : m = [] := List.length_eq_zero.mp (Nat.le_zero.mp hf)
    simpa [evictOldest, this] using hE
  | succ n ih =>
    intro m hf
    unfold evictOldest
    by_cases hlen : maxE ≤ m.length
    · simp only [hlen, if_true]
      cases m with
      | nil => simpa using hE
      | cons p rest => exact ih rest (by simp at hf; omega)
    · simp only [hlen, if_false]
      omega

lemma orDefaultNat_pos (o : Option ℕ) (d : ℕ) (hd : 1 ≤ d) :
    1 ≤ orDefaultNat o d := by
  cases o with
  | none => exact hd
  | some v =>
    by_cases hv : v = 0 <;> simp [orDefaultNat, hv]
    · exact hd
    · omega

lemma mapGet_mapSet_self {α : Type} (m : List (String × α)) (k : String) (v : α) :
    mapGet (mapSet m k v) k = some v := by
  induction m with
  | nil => simp [mapSet, mapGet]
  | cons p rest ih =>
    by_cases h : p.1 = k <;> simp [mapSet, mapGet, h, ih]

lemma bumpHit_store (e : Bool) (s : FwState) (k : String) :
    (bumpHit e s k).store = s.store := by
  unfold bumpHit; split_ifs <;> rfl

lemma bumpRejection_store (e : Bool) (s : FwState) (k : String) :
    (bumpRejection e s k).store = s.store := by
  unfold bumpRejection; split_ifs <;> rfl

lemma fw_capacity (key : String) (limit windowInSeconds : ℤ)
    (cfg : RateLimiterCfg) (now : ℤ) (s : FwState)
    (hcons : fwConsistent s)
    (hM : 1 ≤ cfg.maxStoreSize.getD 1000000)
    (hk : trimmedEmpty key = false) (hlim : 0 < limit) (hwin : 0 < windowInSeconds)
    (hsafe : windowInSeconds * 1000 ≤ maxSafeInteger) :
    (isAllowedMemory key limit windowInSeconds cfg now s).2.store.length
      ≤ cfg.maxStoreSize.getD 1000000 := by
  unfold isAllowedMemory
  rw [if_neg (by simp [hk]), if_neg (by omega), if_neg (not_lt.mpr hsafe)]
  dsimp only
  set M := cfg.maxStoreSize.getD 1000000 with hMdef
  set maxBatch := cfg.maxBatchCleanup.getD 1000 with hBdef
  set enable := cfg.enablePerKeyStats.getD false with hEdef
  set s0 : FwState := { s with callCount := s.callCount + 1 } with hs0
  have hc0 : fwConsistent s0 := hcons
  set s1 := reclaim now maxBatch s0 with hs1
  have hc1 : fwConsistent s1 := fwConsistent_reclaim now maxBatch s0 hc0
  set s2 := if s1.callCount % cfg.cleanupInterval.getD 1000 = 0 ∧ s1.heap ≠ [] then
      reclaim (now - windowInSeconds * 1000) maxBatch s1
    else s1 with hs2
  have hc2 : fwConsistent s2 := by
    rw [hs2]
    split_ifs
    · exact fwConsistent_reclaim _ maxBatch s1 hc1
    · exact hc1
  set s3 := enforceCap M s2.lru.length s2 with hs3
  have hb3 := enforceCap_bound M hM s2.lru.length s2 hc2 le_rfl
  rw [← hs3] at hb3
  cases hget : mapGet s3.store key with
  | none =>
    simp only [hget, bumpHit_store]
    have : (mapSet (addLruNode s3 key).store key
        ⟨1, now + windowInSeconds * 1000⟩).length = s3.store.length + 1 :=
      mapSet_length_of_none _ _ _ hget
    simp only [addLruNode] at this ⊢
    omega
  | some entry =>
    simp only [hget]
    by_cases hexp : entry.expiresAt ≤ now
    · rw [if_pos hexp]
      simp only [bumpHit_store]
      have : (mapSet (moveToFront s3 key).store key
          ⟨1, now + windowInSeconds * 1000⟩).length = s3.store.length :=
        mapSet_length_of_some _ _ _ entry hget
      simp only [moveToFront] at this ⊢
      omega
    · rw [if_neg hexp]
      by_cases hcnt : (entry.count : ℤ) < limit
      · rw [if_pos hcnt]
        simp only [bumpHit_store]
        have : (mapSet (moveToFront s3 key).store key
            ⟨entry.count + 1, entry.expiresAt⟩).length = s3.store.length :=
          mapSet_length_of_some _ _ _ entry hget
        simp only [moveToFront] at this ⊢
        omega
      · rw [if_neg hcnt]
        simp only [bumpRejection_store, moveToFront]
        omega

lemma sw_capacity (cfg : StratConfig) (key : String) (now : ℤ) (m : SwStore) :
    (swIsAllowed cfg key now m).2.length
      ≤ orDefaultNat (cfg.limiterConfig.bind (·.maxStoreSize)) 1000000 := by
  unfold swIsAllowed
  dsimp only
  set maxE := orDefaultNat (cfg.limiterConfig.bind (·.maxStoreSize)) 1000000 with hE
  have hpos : 1 ≤ maxE := orDefaultNat_pos _ _ (by omega)
  set m1 := evictOldest maxE m.length m with hm1
  have hb1 : m1.length < maxE := evictOldest_bound maxE hpos m.length m le_rfl
  cases hget : mapGet m1 key with
  | none =>
    have h1 := mapSet_length_of_none m1 key
      (⟨[], now + cfg.windowInSeconds * 1000⟩ : SwEntry) hget
    have h2 := fun (v : SwEntry) => mapSet_length_of_some _ key v _
      (mapGet_mapSet_self m1 key (⟨[], now + cfg.windowInSeconds * 1000⟩ : SwEntry))
    simp only [hget, Option.getD_none, Option.isNone_none]
    split_ifs <;> simp only [] <;> rw [h2 _, h1] <;> omega
  | some entry =>
    have h2 := fun (v : SwEntry) => mapSet_length_of_some m1 key v entry hget
    simp only [hget, Option.getD_some, Option.isNone_some, Bool.false_eq_true,
      if_false]
    split_ifs <;> simp only [] <;> rw [h2 _] <;> omega

lemma tb_capacity (cfg : StratConfig) (key : String) (now : ℤ) (m : TbStore) :
    (tbIsAllowed cfg key now m).2.length
      ≤ orDefaultNat (cfg.limiterConfig.bind (·.maxStoreSize)) 1000000 := by
  unfold tbIsAllowed
  dsimp only
  set maxE := orDefaultNat (cfg.limiterConfig.bind (·.maxStoreSize)) 1000000 with hE
  have hpos : 1 ≤ maxE := orDefaultNat_pos _ _ (by omega)
  set m1 := evictOldest maxE m.length m with hm1
  have hb1 : m1.length < maxE := evictOldest_bound maxE hpos m.length m le_rfl
  cases hget : mapGet m1 key with
  | none =>
    have h1 := mapSet_length_of_none m1 key
      (⟨(cfg.limit : ℚ), now, (cfg.limit : ℚ),
        (cfg.limit : ℚ) / ((cfg.windowInSeconds : ℚ) * 1000)⟩ : TbEntry) hget
    have h2 := fun (v : TbEntry) => mapSet_length_of_some _ key v _
      (mapGet_mapSet_self m1 key
        (⟨(cfg.limit : ℚ), now, (cfg.limit : ℚ),
          (cfg.limit : ℚ) / ((cfg.windowInSeconds : ℚ) * 1000)⟩ : TbEntry))
    simp only [hget, Option.getD_none, Option.isNone_none]
    split_ifs <;> simp only [] <;> rw [h2 _, h1] <;> omega
  | some entry =>
    have h2 := fun (v : TbEntry) => mapSet_length_of_some m1 key v entry hget
    simp only [hget, Option.getD_some, Option.isNone_some, Bool.false_eq_true,
      if_false]
    split_ifs <;> simp only [] <;> rw [h2 _] <;> omega

lemma evictOldest_drop {α : Type} (maxE : ℕ) :
    ∀ (f : ℕ) (m : List (String × α)), ∃ n, evictOldest maxE f m = m.drop n := by
  intro f
  induction f with
  | zero => intro m; exact ⟨0, rfl⟩
  | succ k ih =>
    intro m
    unfold evictOldest
    by_cases hlen : maxE ≤ m.length
    · rw [if_pos hlen]
      cases m with
      | nil => exact ⟨0, rfl⟩
      | cons p rest =>
        rcases ih rest with ⟨n, hn⟩
        exact ⟨n + 1, by simpa using hn⟩
    · rw [if_neg hlen]
      exact ⟨0, rfl⟩

/-- Claim C5 counterexample: sliding-window store with `maxStoreSize = 3`.
After calls a@0, b@1, a@2, c@3 the last-access times are a:2, b:1, c:3, so the
least-recently-accessed key is "b"; the call d@4 forces an eviction, and the
store evicts "a" (the earliest-inserted key) instead, leaving exactly
["b", "c", "d"].  The comment in the source says as much: "Remove oldest (not
LRU, but simple for now)". -/
theorem C5_counterexample :
    ((swRunPairs ⟨5, 10, some ⟨some 3, none, none, none⟩⟩
        [("a", 0), ("b", 1), ("a", 2), ("c", 3), ("d", 4)] []).2.map Prod.fst)
      = ["b", "c", "d"] := by
  decide

/-- Claim C5 (amended): inserting more than `maxStoreSize` distinct keys never
grows any strategy's store beyond `maxStoreSize` entries.  When the capacity
bound forces an eviction, the fixed-window store evicts the tail of the
recency list (the least-recently-accessed key, since every access moves a key
to the front), while the sliding-window and token-bucket stores evict the
earliest-inserted keys (a prefix of the map's insertion order), which need not
be the least-recently-accessed ones. -/
theorem C5_capacity_and_eviction :
    (∀ (key : String) (limit windowInSeconds : ℤ) (cfg : RateLimiterCfg)
        (now : ℤ) (s : FwState), fwConsistent s →
        1 ≤ cfg.maxStoreSize.getD 1000000 →
        trimmedEmpty key = false → 0 < limit → 0 < windowInSeconds →
        windowInSeconds * 1000 ≤ maxSafeInteger →
        (isAllowedMemory key limit windowInSeconds cfg now s).2.store.length
          ≤ cfg.maxStoreSize.getD 1000000)
    ∧ (∀ (cfg : StratConfig) (key : String) (now : ℤ) (m : SwStore),
        (swIsAllowed cfg key now m).2.length
          ≤ orDefaultNat (cfg.limiterConfig.bind (·.maxStoreSize)) 1000000)
    ∧ (∀ (cfg : StratConfig) (key : String) (now : ℤ) (m : TbStore),
        (tbIsAllowed cfg key now m).2.length
          ≤ orDefaultNat (cfg.limiterConfig.bind (·.maxStoreSize)) 1000000)
    ∧ (∀ (s : FwState) (k : String), s.lru.getLast? = some k →
        (removeLruTail s).store = mapDelete s.store k
          ∧ (removeLruTail s).lru = s.lru.dropLast)
    ∧ (∀ (maxE f : ℕ) (m : SwStore), ∃ n, evictOldest maxE f m = m.drop n) := by
  refine ⟨?_, ?_, ?_, ?_, ?_⟩
  · intro key limit win cfg now s hcons hM hk hlim hwin hsafe
    exact fw_capacity key limit win cfg now s hcons hM hk hlim hwin hsafe
  · intro cfg key now m
    exact sw_capacity cfg key now m
  · intro cfg key now m
    exact tb_capacity cfg key now m
  · intro s k hlast
    unfold removeLruTail
    rw [hlast]
    exact ⟨rfl, rfl⟩
  · intro maxE f m
    exact evictOldest_drop maxE f m

/-- Witness for C5: a fixed-window call on a consistent two-entry store with
`maxStoreSize = 2` stays within the bound, and a sliding-window call with
`maxStoreSize = 1` on a one-entry store stays within the bound. -/
theorem C5_capacity_and_eviction_witness :
    (isAllowedMemory "c" 5 60 ⟨some 2, none, none, none⟩ 0
        ⟨[("a", ⟨1, 100⟩), ("b", ⟨1, 100⟩)], [], 2, 0, 2, ["b", "a"], []⟩).2.store.length ≤ 2
    ∧ (swIsAllowed ⟨5, 60, some ⟨some 1, none, none, none⟩⟩ "c" 0
        [("a", ⟨[0], 60000⟩)]).2.length ≤ 1 := by
  have h := C5_capacity_and_eviction
  refine ⟨h.1 "c" 5 60 ⟨some 2, none, none, none⟩ 0
    ⟨[("a", ⟨1, 100⟩), ("b", ⟨1, 100⟩)], [], 2, 0, 2, ["b", "a"], []⟩
    ⟨by decide, by decide, by decide⟩ (by decide) (by decide) (by decide)
    (by decide) (by decide), ?_⟩
  exact h.2.1 ⟨5, 60, some ⟨some 1, none, none, none⟩⟩ "c" 0 [("a", ⟨[0], 60000⟩)]

lemma reclaim_heap_nil (threshold : ℤ) (b : ℕ) (s : FwState) (h : s.heap = []) :
    reclaim threshold b s = s := by
  cases b with
  | zero => rfl
  | succ n => unfold reclaim; rw [h]; rfl

lemma reclaim_noop (threshold : ℤ) (b : ℕ) (s : FwState) (top : HeapNode)
    (htop : s.heap.head? = some top) (h : ¬ top.expiresAt ≤ threshold) :
    reclaim threshold b s = s := by
  cases b with
  | zero => rfl
  | succ n =>
    unfold reclaim
    rw [htop]
    simp only [h, if_false]

lemma enforceCap_noop (M : ℕ) (s : FwState) (h : s.store.length < M) :
    ∀ f, enforceCap M f s = s := by
  intro f
  cases f with
  | zero => rfl
  | succ n => unfold enforceCap; rw [if_neg (by omega)]

lemma fw_first_call (k : String) (L W : ℤ) (cfg : RateLimiterCfg) (t0 : ℤ)
    (hk : trimmedEmpty k = false) (hL : 0 < L) (hW : 0 < W)
    (hsafe : W * 1000 ≤ maxSafeInteger)
    (hE : cfg.enablePerKeyStats.getD false = false) :
    isAllowedMemory k L W cfg t0 fwInit
      = (.ok true, fwCanonSt k (t0 + W * 1000) 1 1 0 1) := by
  unfold isAllowedMemory
  rw [if_neg (by simp [hk]), if_neg (by omega), if_neg (not_lt.mpr hsafe)]
  dsimp only
  rw [reclaim_heap_nil _ _ _ (by rfl)]
  rw [if_neg (by simp [fwInit])]
  simp [fwInit, enforceCap, mapGet, mapSet, addLruNode, heapPush, siftUp,
    bumpHit, hE, fwCanonSt]

lemma fw_step_call (k : String) (L W : ℤ) (cfg : RateLimiterCfg) (t e : ℤ)
    (c hh rr nn : ℕ)
    (hk : trimmedEmpty k = false) (hL : 0 < L) (hW : 0 < W)
    (hsafe : W * 1000 ≤ maxSafeInteger)
    (hM : 2 ≤ cfg.maxStoreSize.getD 1000000)
    (hE : cfg.enablePerKeyStats.getD false = false)
    (ht : t < e) :
    isAllowedMemory k L W cfg t (fwCanonSt k e c hh rr nn)
      = if (c : ℤ) < L then (.ok true, fwCanonSt k e (c + 1) (hh + 1) rr (nn + 1))
        else (.ok false, fwCanonSt k e c hh (rr + 1) (nn + 1)) := by
  unfold isAllowedMemory
  rw [if_neg (by simp [hk]), if_neg (by omega), if_neg (not_lt.mpr hsafe)]
  dsimp only
  rw [reclaim_noop _ _ _ ⟨k, e⟩ (by rfl) (by exact not_le.mpr ht)]
  rw [show (if ((fwCanonSt k e c hh rr nn).callCount + 1) % cfg.cleanupInterval.getD 1000 = 0
        ∧ ({ fwCanonSt k e c hh rr nn with
              callCount := (fwCanonSt k e c hh rr nn).callCount + 1 } : FwState).heap ≠ [] then
      reclaim (t - W * 1000) (cfg.maxBatchCleanup.getD 1000)
        { fwCanonSt k e c hh rr nn with
          callCount := (fwCanonSt k e c hh rr nn).callCount + 1 }
    else { fwCanonSt k e c hh rr nn with
           callCount := (fwCanonSt k e c hh rr nn).callCount + 1 })
      = ({ fwCanonSt k e c hh rr nn with
           callCount := (fwCanonSt k e c hh rr nn).callCount + 1 } : FwState) by
    rw [reclaim_noop _ _ _ ⟨k, e⟩ (by rfl) (by exact not_le.mpr (show t - W * 1000 < e by omega))]
    exact ite_self _]
  rw [enforceCap_noop _ _ (by simp [fwCanonSt]; omega) _]
  by_cases hcnt : (c : ℤ) < L <;>
    simp [fwCanonSt, mapGet, mapSet, moveToFront, removeKey, bumpHit,
      bumpRejection, hE, hcnt, not_le.mpr ht]

lemma fwStrategyIsAllowed_eq (scfg : StratConfig) (key : String) (t : ℤ)
    (s : FwState)
    (h : s.store.length < orDefaultNat (scfg.limiterConfig.bind (·.maxStoreSize)) 1000000
      ∨ s.lru = []) :
    fwStrategyIsAllowed scfg key t s
      = isAllowedMemory key scfg.limit scfg.windowInSeconds
          (scfg.limiterConfig.getD emptyRateLimiterCfg) t s := by
  unfold fwStrategyIsAllowed
  dsimp only
  rcases h with h | h
  · rw [enforceCap_noop _ _ h _]
  · rw [h]
    rfl

lemma fwRunPairs_canon (scfg : StratConfig) (k : String) (e : ℤ)
    (hk : trimmedEmpty k = false) (hL : 0 < scfg.limit)
    (hW : 0 < scfg.windowInSeconds)
    (hsafe : scfg.windowInSeconds * 1000 ≤ maxSafeInteger)
    (hM1 : 2 ≤ orDefaultNat (scfg.limiterConfig.bind (·.maxStoreSize)) 1000000)
    (hM2 : 2 ≤ (scfg.limiterConfig.getD emptyRateLimiterCfg).maxStoreSize.getD 1000000)
    (hE : (scfg.limiterConfig.getD emptyRateLimiterCfg).enablePerKeyStats.getD false = false) :
    ∀ (ts : List ℤ) (c hh rr nn : ℕ), (∀ t ∈ ts, t < e) →
    ∃ hh2 rr2,
      fwRunPairs scfg (ts.map (fun t => (k, t))) (fwCanonSt k e c hh rr nn)
        = (fwExpected scfg.limit c ts.length,
           fwCanonSt k e (fwCountAfter scfg.limit c ts.length) hh2 rr2 (nn + ts.length)) := by
  intro ts
  induction ts with
  | nil =>
    intro c hh rr nn _
    exact ⟨hh, rr, by simp [fwRunPairs, fwExpected, fwCountAfter]⟩
  | cons t ts ih =>
    intro c hh rr nn hts
    have hstep : fwStrategyIsAllowed scfg k t (fwCanonSt k e c hh rr nn)
        = isAllowedMemory k scfg.limit scfg.windowInSeconds
            (scfg.limiterConfig.getD emptyRateLimiterCfg) t (fwCanonSt k e c hh rr nn) :=
      fwStrategyIsAllowed_eq scfg k t _ (Or.inl (by simp [fwCanonSt]; omega))
    have hmem := fw_step_call k scfg.limit scfg.windowInSeconds
      (scfg.limiterConfig.getD emptyRateLimiterCfg) t e c hh rr nn
      hk hL hW hsafe hM2 hE (hts t (List.mem_cons_self _ _))
    have htail : ∀ t2 ∈ ts, t2 < e := fun t2 h2 => hts t2 (List.mem_cons_of_mem _ h2)
    by_cases hcnt : (c : ℤ) < scfg.limit
    · rcases ih (c + 1) (hh + 1) rr (nn + 1) htail with ⟨hh2, rr2, htl⟩
      refine ⟨hh2, rr2, ?_⟩
      simp only [List.map_cons, fwRunPairs, hstep, hmem, if_pos hcnt, htl,
        fwExpected, fwCountAfter, List.length_cons, Prod.mk.injEq]
      refine ⟨by simp [hcnt], ?_⟩
      have harith : nn + 1 + ts.length = nn + (ts.length + 1) := by omega
      rw [harith]
    · rcases ih c hh (rr + 1) (nn + 1) htail with ⟨hh2, rr2, htl⟩
      refine ⟨hh2, rr2, ?_⟩
      simp only [List.map_cons, fwRunPairs, hstep, hmem, if_neg hcnt, htl,
        fwExpected, fwCountAfter, List.length_cons, Prod.mk.injEq]
      refine ⟨by simp [hcnt], ?_⟩
      have harith : nn + 1 + ts.length = nn + (ts.length + 1) := by omega
      rw [harith]

lemma mapGet_single {α : Type} (k : String) (v : α) : mapGet [(k, v)] k = some v := by
  simp [mapGet]

lemma fwExpected_closed (L : ℕ) : ∀ (n c : ℕ),
    fwExpected (L : ℤ) c n
      = (List.range n).map (fun i => .ok (decide (c + i < L))) := by
  intro n
  induction n with
  | zero => intro c; simp [fwExpected]
  | succ m ih =>
    intro c
    rw [List.range_succ_eq_map]
    simp only [fwExpected, List.map_cons, List.map_map]
    by_cases hc : c < L
    · rw [if_pos (by exact_mod_cast hc), ih (c + 1)]
      congr 1
      · simp [hc]
      · apply List.map_congr_left
        intro i _
        simp only [Function.comp, Nat.succ_eq_add_one]
        rw [show c + 1 + i = c + (i + 1) from by omega]
    · rw [if_neg (by exact_mod_cast hc), ih c]
      congr 1
      · have : ¬ (c + 0 < L) := by omega
        simp [this, hc]
      · apply List.map_congr_left
        intro i _
        simp only [Function.comp]
        have h1 : ¬ (c + i < L) := by omega
        have h2 : ¬ (c + (i + 1) < L) := by omega
        simp [h1, h2]

lemma fwCountAfter_closed (L : ℕ) : ∀ (n c : ℕ), c ≤ L →
    fwCountAfter (L : ℤ) c n = min (c + n) L := by
  intro n
  induction n with
  | zero => intro c hc; simp only [fwCountAfter]; omega
  | succ m ih =>
    intro c hc
    simp only [fwCountAfter]
    by_cases hcL : c < L
    · rw [if_pos (by exact_mod_cast hcL), ih (c + 1) (by omega)]
      omega
    · rw [if_neg (by exact_mod_cast hcL), ih c hc]
      omega

/-- Claim C1: for the fixed-window strategy with a valid key, positive limit
`L`, positive window `W` (with headroom for store capacity at least 2 and
default per-key stats), a burst of single-key calls all made within `W`
seconds of the key's first call of the cycle behaves as: the `i`-th call in
arrival order returns `true` iff `i ≤ L` (so the first `L` calls are allowed
and the `(L+1)`-th is rejected), and the stored count after `n` calls is
`min n L` — a rejected call does not increment it. -/
theorem C1_fixed_window_quota (L : ℕ) (hL : 1 ≤ L) (W : ℤ) (hW : 0 < W)
    (hsafe : W * 1000 ≤ maxSafeInteger) (lc : Option RateLimiterCfg)
    (hM1 : 2 ≤ orDefaultNat (lc.bind (·.maxStoreSize)) 1000000)
    (hM2 : 2 ≤ (lc.getD emptyRateLimiterCfg).maxStoreSize.getD 1000000)
    (hE : (lc.getD emptyRateLimiterCfg).enablePerKeyStats.getD false = false)
    (k : String) (hk : trimmedEmpty k = false)
    (t0 : ℤ) (rest : List ℤ) (hrest : ∀ t ∈ rest, t0 ≤ t ∧ t < t0 + W * 1000) :
    (fwRunPairs ⟨(L : ℤ), W, lc⟩ ((t0 :: rest).map (fun t => (k, t))) fwInit).1
      = (List.range (rest.length + 1)).map (fun i => .ok (decide (i < L)))
    ∧ mapGet (fwRunPairs ⟨(L : ℤ), W, lc⟩ ((t0 :: rest).map (fun t => (k, t))) fwInit).2.store k
      = some ⟨min (rest.length + 1) L, t0 + W * 1000⟩ := by
  have hLz : (0 : ℤ) < (L : ℤ) := by exact_mod_cast hL
  have h1 : fwStrategyIsAllowed ⟨(L : ℤ), W, lc⟩ k t0 fwInit
      = isAllowedMemory k (L : ℤ) W (lc.getD emptyRateLimiterCfg) t0 fwInit :=
    fwStrategyIsAllowed_eq _ k t0 fwInit (Or.inr rfl)
  have h2 := fw_first_call k (L : ℤ) W (lc.getD emptyRateLimiterCfg) t0 hk hLz hW hsafe hE
  rcases fwRunPairs_canon ⟨(L : ℤ), W, lc⟩ k (t0 + W * 1000) hk hLz hW hsafe hM1 hM2 hE
      rest 1 1 0 1 (fun t ht => (hrest t ht).2) with ⟨hh2, rr2, htr⟩
  have hrun : fwRunPairs ⟨(L : ℤ), W, lc⟩ ((t0 :: rest).map (fun t => (k, t))) fwInit
      = (.ok true :: fwExpected (L : ℤ) 1 rest.length,
         fwCanonSt k (t0 + W * 1000) (fwCountAfter (L : ℤ) 1 rest.length) hh2 rr2
           (1 + rest.length)) := by
    simp only [List.map_cons, fwRunPairs, h1, h2, htr]
  rw [hrun]
  constructor
  · simp only []
    rw [fwExpected_closed L rest.length 1, List.range_succ_eq_map]
    simp only [List.map_cons, List.map_map]
    congr 1
    · have h0 : 0 < L := hL
      simp [h0]
    · apply List.map_congr_left
      intro i _
      simp only [Function.comp, Nat.succ_eq_add_one]
      have hcomm : 1 + i = i + 1 := by omega
      rw [hcomm]
  · simp only [fwCanonSt]
    rw [mapGet_single, fwCountAfter_closed L rest.length 1 hL,
      show 1 + rest.length = rest.length + 1 from by omega]

/-- Witness for C1: limit 1, window 1s, three calls at 0ms, 10ms, 20ms:
results `[true, false, false]`, stored count stays 1. -/
theorem C1_fixed_window_quota_witness :
    (fwRunPairs ⟨1, 1, none⟩ (([0, 10, 20] : List ℤ).map (fun t => ("a", t))) fwInit).1
      = (List.range 3).map (fun i => .ok (decide (i < 1)))
    ∧ mapGet (fwRunPairs ⟨1, 1, none⟩ (([0, 10, 20] : List ℤ).map (fun t => ("a", t))) fwInit).2.store "a"
      = some ⟨min 3 1, 1000⟩ := by
  have h := C1_fixed_window_quota 1 (by decide) 1 (by decide) (by decide) none
    (by decide) (by decide) (by decide) "a" (by decide) 0 [10, 20] (by decide)
  simpa using h

lemma evictOldest_noop {α : Type} (maxE : ℕ) (m : List (String × α))
    (h : m.length < maxE) : ∀ f, evictOldest maxE f m = m := by
  intro f
  cases f with
  | zero => rfl
  | succ n => unfold evictOldest; rw [if_neg (by omega)]

lemma mapSet_single {α : Type} (k : String) (v w : α) :
    mapSet [(k, v)] k w = [(k, w)] := by
  simp [mapSet]

lemma filter_cutoff_collapse (c1 c2 : ℤ) (h : c1 ≤ c2) (l : List ℤ) :
    (l.filter (fun u => c1 < u)).filter (fun u => c2 < u)
      = l.filter (fun u => c2 < u) := by
  induction l with
  | nil => rfl
  | cons x rest ih =>
    by_cases h1 : c1 < x
    · by_cases h2 : c2 < x <;> simp [h1, h2, ih]
    · have h2 : ¬ c2 < x := by omega
      simp [h1, h2, ih]

lemma filter_all_of_lt (c : ℤ) (l : List ℤ) (h : ∀ u ∈ l, c < u) :
    l.filter (fun u => c < u) = l := by
  induction l with
  | nil => rfl
  | cons x rest ih =>
    have hx := h x (List.mem_cons_self _ _)
    simp only [List.filter_cons, hx, decide_True, if_true]
    rw [ih (fun u hu => h u (List.mem_cons_of_mem _ hu))]

lemma swRunPairs_canon (scfg : StratConfig) (k : String)
    (hW : 0 < scfg.windowInSeconds)
    (hM : 2 ≤ orDefaultNat (scfg.limiterConfig.bind (·.maxStoreSize)) 1000000) :
    ∀ (times : List ℤ) (acc : List ℤ) (tp e : ℤ),
      (∀ u ∈ times, tp ≤ u) → times.Pairwise (· ≤ ·) →
      ∃ ts2,
        swRunPairs scfg (times.map (fun t => (k, t)))
            [(k, ⟨acc.filter (fun u => tp - scfg.windowInSeconds * 1000 < u), e⟩)]
          = (swDecisions scfg.limit (scfg.windowInSeconds * 1000) acc times,
             [(k, ⟨ts2, e⟩)]) := by
  intro times
  induction times with
  | nil =>
    intro acc tp e _ _
    exact ⟨acc.filter (fun u => tp - scfg.windowInSeconds * 1000 < u), by
      simp [swRunPairs, swDecisions]⟩
  | cons t rest ih =>
    intro acc tp e hbound hpair
    have htp : tp ≤ t := hbound t (List.mem_cons_self _ _)
    have hcol : ((acc.filter (fun u => tp - scfg.windowInSeconds * 1000 < u)).filter
        (fun u => t - scfg.windowInSeconds * 1000 < u))
        = acc.filter (fun u => t - scfg.windowInSeconds * 1000 < u) :=
      filter_cutoff_collapse _ _ (by omega) acc
    have hstep : swIsAllowed scfg k t
        [(k, ⟨acc.filter (fun u => tp - scfg.windowInSeconds * 1000 < u), e⟩)]
        = (if ((acc.filter (fun u => t - scfg.windowInSeconds * 1000 < u)).length : ℤ)
              < scfg.limit
           then (true, [(k, ⟨acc.filter (fun u => t - scfg.windowInSeconds * 1000 < u)
                  ++ [t], e⟩)])
           else (false, [(k, ⟨acc.filter (fun u => t - scfg.windowInSeconds * 1000 < u),
                  e⟩)])) := by
      unfold swIsAllowed
      dsimp only
      rw [evictOldest_noop _ _ (by simp; omega) _]
      rw [mapGet_single]
      simp only [Option.getD_some, Option.isNone_some, Bool.false_eq_true, if_false,
        ite_false]
      rw [hcol]
      by_cases hd : ((acc.filter (fun u => t - scfg.windowInSeconds * 1000 < u)).length : ℤ)
          < scfg.limit <;>
        simp [hd, mapSet_single]
    rcases List.pairwise_cons.mp hpair with ⟨hrest_ge, hrest_pair⟩
    by_cases hd : ((acc.filter (fun u => t - scfg.windowInSeconds * 1000 < u)).length : ℤ)
        < scfg.limit
    · have hnew : (acc ++ [t]).filter (fun u => t - scfg.windowInSeconds * 1000 < u)
          = acc.filter (fun u => t - scfg.windowInSeconds * 1000 < u) ++ [t] := by
        rw [List.filter_append]
        congr 1
        simp
        omega
      rcases ih (acc ++ [t]) t e hrest_ge hrest_pair with ⟨ts2, hih⟩
      rw [hnew] at hih
      refine ⟨ts2, ?_⟩
      simp only [List.map_cons, swRunPairs, hstep, if_pos hd, hih, swDecisions]
    · rcases ih acc t e hrest_ge hrest_pair with ⟨ts2, hih⟩
      refine ⟨ts2, ?_⟩
      simp only [List.map_cons, swRunPairs, hstep, if_neg hd, hih, swDecisions,
        if_neg hd]

lemma sw_first_step (scfg : StratConfig) (k : String) (t0 : ℤ)
    (hL : 0 < scfg.limit) :
    swIsAllowed scfg k t0 []
      = (true, [(k, ⟨[t0], t0 + scfg.windowInSeconds * 1000⟩)]) := by
  unfold swIsAllowed
  dsimp only
  rw [show evictOldest (orDefaultNat (scfg.limiterConfig.bind (·.maxStoreSize)) 1000000)
      (List.length ([] : SwStore)) [] = ([] : SwStore) from rfl]
  simp [mapGet, mapSet, hL]

lemma swRunPairs_from_empty (scfg : StratConfig) (k : String)
    (hW : 0 < scfg.windowInSeconds)
    (hM : 2 ≤ orDefaultNat (scfg.limiterConfig.bind (·.maxStoreSize)) 1000000)
    (hL : 0 < scfg.limit) (t0 : ℤ) (rest : List ℤ)
    (hpair : (t0 :: rest).Pairwise (· ≤ ·)) :
    ∃ ts2,
      swRunPairs scfg ((t0 :: rest).map (fun t => (k, t))) []
        = (swDecisions scfg.limit (scfg.windowInSeconds * 1000) [] (t0 :: rest),
           [(k, ⟨ts2, t0 + scfg.windowInSeconds * 1000⟩)]) := by
  rcases List.pairwise_cons.mp hpair with ⟨hge, hpr⟩
  have hfirst := sw_first_step scfg k t0 hL
  have hcanon : ([t0] : List ℤ)
      = ([t0] : List ℤ).filter (fun u => t0 - scfg.windowInSeconds * 1000 < u) :=
    (filter_all_of_lt (t0 - scfg.windowInSeconds * 1000) [t0]
      (by intro u hu; simp at hu; subst hu; omega)).symm
  rcases swRunPairs_canon scfg k hW hM rest [t0] t0
      (t0 + scfg.windowInSeconds * 1000) hge hpr with ⟨ts2, hrun⟩
  rw [← hcanon] at hrun
  refine ⟨ts2, ?_⟩
  simp only [List.map_cons, swRunPairs, hfirst, hrun]
  have hdec : swDecisions scfg.limit (scfg.windowInSeconds * 1000) [] (t0 :: rest)
      = true :: swDecisions scfg.limit (scfg.windowInSeconds * 1000) [t0] rest := by
    rw [show swDecisions scfg.limit (scfg.windowInSeconds * 1000) [] (t0 :: rest)
        = if ((([] : List ℤ).filter
              (fun u => t0 - scfg.windowInSeconds * 1000 < u)).length : ℤ) < scfg.limit
          then true :: swDecisions scfg.limit (scfg.windowInSeconds * 1000) ([] ++ [t0]) rest
          else false :: swDecisions scfg.limit (scfg.windowInSeconds * 1000) [] rest
        from rfl]
    rw [if_pos (by simp; omega), List.nil_append]
  rw [hdec]

lemma sorted_filter_length (l : List ℤ) (hl : l.Pairwise (· ≤ ·)) (j : ℕ)
    (hj : j < l.length) (c : ℤ) (hc : c < l.getD j 0) :
    l.length - j ≤ (l.filter (fun u => c < u)).length := by
  induction l generalizing j with
  | nil => simp at hj
  | cons x rest ih =>
    rcases List.pairwise_cons.mp hl with ⟨hxr, hr⟩
    cases j with
    | zero =>
      simp only [List.getD_cons_zero] at hc
      rw [filter_all_of_lt c (x :: rest) ?hall]
      case hall =>
        intro u hu
        rcases List.mem_cons.mp hu with h1 | h1
        · omega
        · have := hxr u h1
          omega
      omega
    | succ m =>
      simp only [List.getD_cons_succ] at hc
      simp only [List.length_cons] at hj
      have hrec := ih hr m (by omega) hc
      simp only [List.filter_cons, List.length_cons]
      by_cases hx : c < x <;> simp [hx] <;> omega

lemma spaced_append (L : ℕ) (hL : 1 ≤ L) (W : ℤ) (acc : List ℤ) (t : ℤ)
    (hsort : acc.Pairwise (· ≤ ·)) (hsp : spacedAtDistance L W acc)
    (hd : ((acc.filter (fun u => t - W < u)).length : ℤ) < (L : ℤ)) :
    spacedAtDistance L W (acc ++ [t]) := by
  intro i hi
  simp only [List.length_append, List.length_cons, List.length_nil] at hi
  by_cases hcase : i + L < acc.length
  · have h1 : (acc ++ [t]).getD i 0 = acc.getD i 0 := by
      rw [List.getD_append]
      omega
    have h2 : (acc ++ [t]).getD (i + L) 0 = acc.getD (i + L) 0 := by
      rw [List.getD_append]
      omega
    rw [h1, h2]
    exact hsp i hcase
  · have heq : i + L = acc.length := by omega
    have hilt : i < acc.length := by omega
    have h1 : (acc ++ [t]).getD i 0 = acc.getD i 0 :=
      List.getD_append acc [t] 0 i (by omega)
    have h2 : (acc ++ [t]).getD (i + L) 0 = t := by
      rw [heq, List.getD_append_right acc [t] 0 acc.length (le_refl _)]
      simp
    rw [h1, h2]
    by_contra hlt
    have hfil := sorted_filter_length acc hsort i hilt (t - W) (by omega)
    have : L ≤ (acc.filter (fun u => t - W < u)).length := by omega
    omega

lemma swAllowedTimes_props (L : ℕ) (hL : 1 ≤ L) (W : ℤ) :
    ∀ (times acc : List ℤ), times.Pairwise (· ≤ ·) → acc.Pairwise (· ≤ ·) →
      (∀ a ∈ acc, ∀ u ∈ times, a ≤ u) → spacedAtDistance L W acc →
      (swAllowedTimes (L : ℤ) W acc times).Pairwise (· ≤ ·)
        ∧ spacedAtDistance L W (swAllowedTimes (L : ℤ) W acc times) := by
  intro times
  induction times with
  | nil => intro acc _ hacc _ hsp; exact ⟨hacc, hsp⟩
  | cons t rest ih =>
    intro acc hpair hacc hbound hsp
    rcases List.pairwise_cons.mp hpair with ⟨hge, hpr⟩
    by_cases hd : ((acc.filter (fun u => t - W < u)).length : ℤ) < (L : ℤ)
    · rw [show swAllowedTimes (L : ℤ) W acc (t :: rest)
          = swAllowedTimes (L : ℤ) W (acc ++ [t]) rest from by
        rw [show swAllowedTimes (L : ℤ) W acc (t :: rest)
            = if ((acc.filter (fun u => t - W < u)).length : ℤ) < (L : ℤ)
              then swAllowedTimes (L : ℤ) W (acc ++ [t]) rest
              else swAllowedTimes (L : ℤ) W acc rest from rfl, if_pos hd]]
      apply ih
      · exact hpr
      · rw [List.pairwise_append]
        refine ⟨hacc, by simp, ?_⟩
        intro a ha b hb
        have hb2 : b = t := by simpa using hb
        rw [hb2]
        exact hbound a ha t (List.mem_cons_self _ _)
      · intro a ha u hu
        rcases List.mem_append.mp ha with h1 | h1
        · exact hbound a h1 u (List.mem_cons_of_mem _ hu)
        · have h12 : a = t := by simpa using h1
          rw [h12]
          exact hge u hu
      · exact spaced_append L hL W acc t hacc hsp hd
    · rw [show swAllowedTimes (L : ℤ) W acc (t :: rest)
          = swAllowedTimes (L : ℤ) W acc rest from by
        rw [show swAllowedTimes (L : ℤ) W acc (t :: rest)
            = if ((acc.filter (fun u => t - W < u)).length : ℤ) < (L : ℤ)
              then swAllowedTimes (L : ℤ) W (acc ++ [t]) rest
              else swAllowedTimes (L : ℤ) W acc rest from rfl, if_neg hd]]
      apply ih
      · exact hpr
      · exact hacc
      · intro a ha u hu
        exact hbound a ha u (List.mem_cons_of_mem _ hu)
      · exact hsp

lemma allowedTimes_spec (L W : ℤ) : ∀ (times acc : List ℤ),
    ∃ suffix, swAllowedTimes L W acc times = acc ++ suffix
      ∧ allowedTimes times (swDecisions L W acc times) = suffix := by
  intro times
  induction times with
  | nil =>
    intro acc
    exact ⟨[], by simp [swAllowedTimes], by simp [allowedTimes, swDecisions]⟩
  | cons t rest ih =>
    intro acc
    by_cases hd : ((acc.filter (fun u => t - W < u)).length : ℤ) < L
    · rcases ih (acc ++ [t]) with ⟨suf, h1, h2⟩
      refine ⟨[t] ++ suf, ?_, ?_⟩
      · rw [show swAllowedTimes L W acc (t :: rest)
            = swAllowedTimes L W (acc ++ [t]) rest from by
          rw [show swAllowedTimes L W acc (t :: rest)
              = if ((acc.filter (fun u => t - W < u)).length : ℤ) < L
                then swAllowedTimes L W (acc ++ [t]) rest
                else swAllowedTimes L W acc rest from rfl, if_pos hd]]
        rw [h1, List.append_assoc]
      · rw [show swDecisions L W acc (t :: rest)
            = true :: swDecisions L W (acc ++ [t]) rest from by
          rw [show swDecisions L W acc (t :: rest)
              = if ((acc.filter (fun u => t - W < u)).length : ℤ) < L
                then true :: swDecisions L W (acc ++ [t]) rest
                else false :: swDecisions L W acc rest from rfl, if_pos hd]]
        simp only [allowedTimes, List.zip_cons_cons, List.filter_cons]
        simp only [decide_True, if_true]
        simp only [List.map_cons]
        rw [show ((rest.zip (swDecisions L W (acc ++ [t]) rest)).filter
            (fun p => p.2)).map (fun p => p.1)
            = allowedTimes rest (swDecisions L W (acc ++ [t]) rest) from rfl, h2]
        rfl
    · rcases ih acc with ⟨suf, h1, h2⟩
      refine ⟨suf, ?_, ?_⟩
      · rw [show swAllowedTimes L W acc (t :: rest)
            = swAllowedTimes L W acc rest from by
          rw [show swAllowedTimes L W acc (t :: rest)
              = if ((acc.filter (fun u => t - W < u)).length : ℤ) < L
                then swAllowedTimes L W (acc ++ [t]) rest
                else swAllowedTimes L W acc rest from rfl, if_neg hd]]
        exact h1
      · rw [show swDecisions L W acc (t :: rest)
            = false :: swDecisions L W acc rest from by
          rw [show swDecisions L W acc (t :: rest)
              = if ((acc.filter (fun u => t - W < u)).length : ℤ) < L
                then true :: swDecisions L W (acc ++ [t]) rest
                else false :: swDecisions L W acc rest from rfl, if_neg hd]]
        simp only [allowedTimes, List.zip_cons_cons, List.filter_cons]
        simp only [decide_False, Bool.false_eq_true, if_false]
        exact h2

lemma range_succ_decide (L j m : ℕ) :
    (List.range (m + 1)).map (fun i => decide (j + i < L))
      = decide (j < L) :: (List.range m).map (fun i => decide (j + 1 + i < L)) := by
  rw [List.range_succ_eq_map]
  simp only [List.map_cons, List.map_map, Nat.add_zero]
  congr 1
  apply List.map_congr_left
  intro i _
  simp only [Function.comp, Nat.succ_eq_add_one]
  rw [show j + (i + 1) = j + 1 + i from by omega]

lemma swDecisions_append (L W : ℤ) : ∀ (xs ys acc : List ℤ),
    swDecisions L W acc (xs ++ ys)
      = swDecisions L W acc xs ++ swDecisions L W (swAllowedTimes L W acc xs) ys := by
  intro xs
  induction xs with
  | nil => intro ys acc; rfl
  | cons x xs ih =>
    intro ys acc
    simp only [List.cons_append, swDecisions, swAllowedTimes]
    by_cases hd : ((acc.filter (fun u => x - W < u)).length : ℤ) < L <;>
      simp [hd, ih]

lemma swReplicate (L : ℕ) (W : ℤ) (hW : 0 < W) (t : ℤ) :
    ∀ (m j : ℕ), j ≤ L →
      swDecisions (L : ℤ) W (List.replicate j t) (List.replicate m t)
        = (List.range m).map (fun i => decide (j + i < L))
      ∧ swAllowedTimes (L : ℤ) W (List.replicate j t) (List.replicate m t)
        = List.replicate (min (j + m) L) t := by
  intro m
  induction m with
  | zero =>
    intro j hj
    refine ⟨by simp [swDecisions], ?_⟩
    rw [show (List.replicate 0 t : List ℤ) = [] from rfl,
      show swAllowedTimes (L : ℤ) W (List.replicate j t) [] = List.replicate j t
        from rfl]
    congr 1
    omega
  | succ m ih =>
    intro j hj
    have hfil : (List.replicate j t).filter (fun u => t - W < u)
        = List.replicate j t :=
      filter_all_of_lt _ _ (by
        intro u hu
        have : u = t := List.eq_of_mem_replicate hu
        omega)
    rw [List.replicate_succ, range_succ_decide]
    by_cases hd : j < L
    · have hdz : ((List.replicate j t).filter (fun u => t - W < u)).length < (L : ℤ) := by
        rw [hfil]
        simp
        exact_mod_cast hd
      rw [show swDecisions (L : ℤ) W (List.replicate j t) (t :: List.replicate m t)
          = true :: swDecisions (L : ℤ) W (List.replicate j t ++ [t]) (List.replicate m t)
          from by
        rw [show swDecisions (L : ℤ) W (List.replicate j t) (t :: List.replicate m t)
            = if (((List.replicate j t).filter (fun u => t - W < u)).length : ℤ) < (L : ℤ)
              then true :: swDecisions (L : ℤ) W (List.replicate j t ++ [t]) (List.replicate m t)
              else false :: swDecisions (L : ℤ) W (List.replicate j t) (List.replicate m t)
            from rfl, if_pos hdz]]
      rw [show swAllowedTimes (L : ℤ) W (List.replicate j t) (t :: List.replicate m t)
          = swAllowedTimes (L : ℤ) W (List.replicate j t ++ [t]) (List.replicate m t)
          from by
        rw [show swAllowedTimes (L : ℤ) W (List.replicate j t) (t :: List.replicate m t)
            = if (((List.replicate j t).filter (fun u => t - W < u)).length : ℤ) < (L : ℤ)
              then swAllowedTimes (L : ℤ) W (List.replicate j t ++ [t]) (List.replicate m t)
              else swAllowedTimes (L : ℤ) W (List.replicate j t) (List.replicate m t)
            from rfl, if_pos hdz]]
      rw [← List.replicate_succ' j t]
      rcases ih (j + 1) (by omega) with ⟨ihd, iha⟩
      refine ⟨?_, ?_⟩
      · rw [ihd]
        congr 1
        simp [hd]
      · rw [iha]
        congr 1
        omega
    · have hdz : ¬ (((List.replicate j t).filter (fun u => t - W < u)).length : ℤ) < (L : ℤ) := by
        rw [hfil]
        simp
        omega
      rw [show swDecisions (L : ℤ) W (List.replicate j t) (t :: List.replicate m t)
          = false :: swDecisions (L : ℤ) W (List.replicate j t) (List.replicate m t)
          from by
        rw [show swDecisions (L : ℤ) W (List.replicate j t) (t :: List.replicate m t)
            = if (((List.replicate j t).filter (fun u => t - W < u)).length : ℤ) < (L : ℤ)
              then true :: swDecisions (L : ℤ) W (List.replicate j t ++ [t]) (List.replicate m t)
              else false :: swDecisions (L : ℤ) W (List.replicate j t) (List.replicate m t)
            from rfl, if_neg hdz]]
      rw [show swAllowedTimes (L : ℤ) W (List.replicate j t) (t :: List.replicate m t)
          = swAllowedTimes (L : ℤ) W (List.replicate j t) (List.replicate m t)
          from by
        rw [show swAllowedTimes (L : ℤ) W (List.replicate j t) (t :: List.replicate m t)
            = if (((List.replicate j t).filter (fun u => t - W < u)).length : ℤ) < (L : ℤ)
              then swAllowedTimes (L : ℤ) W (List.replicate j t ++ [t]) (List.replicate m t)
              else swAllowedTimes (L : ℤ) W (List.replicate j t) (List.replicate m t)
            from rfl, if_neg hdz]]
      rcases ih j hj with ⟨ihd, iha⟩
      refine ⟨?_, ?_⟩
      · rw [ihd]
        congr 1
        · simp
          omega
        · apply List.map_congr_left
          intro i _
          have h1 : ¬ (j + i < L) := by omega
          have h2 : ¬ (j + 1 + i < L) := by omega
          simp [h1, h2]
      · rw [iha]
        congr 1
        omega

lemma pairwise_le_replicate (t : ℤ) : ∀ n, (List.replicate n t).Pairwise (· ≤ ·) := by
  intro n
  induction n with
  | zero => simp
  | succ m ih =>
    rw [List.replicate_succ]
    refine List.pairwise_cons.mpr ⟨?_, ih⟩
    intro u hu
    rw [List.eq_of_mem_replicate hu]

lemma map_range_all_true (n L : ℕ) (h : n ≤ L) :
    (List.range n).map (fun i => decide (i < L)) = List.replicate n true := by
  refine List.eq_replicate_iff.mpr ⟨by simp, ?_⟩
  intro b hb
  rcases List.mem_map.mp hb with ⟨i, hi, hbi⟩
  rw [← hbi]
  simp only [decide_eq_true_eq]
  have := List.mem_range.mp hi
  omega

/-- Claim C2: for the sliding-window strategy with limit `L` and window `W`
and any non-decreasing sequence of single-key call times, the timestamps of
the allowed calls are spaced so that ranks `i` and `i + L` are at least the
window apart — hence at most `L` calls are allowed within any half-open
window-length interval.  In particular, `L` allowed calls at `t0` followed by
one call at `t0 + W·1000 − ε` (for any `0 < ε ≤ W·1000`) give `L` `true`s and
then a rejection. -/
theorem C2_sliding_window_bound (L : ℕ) (hL : 1 ≤ L) (W : ℤ) (hW : 0 < W)
    (lc : Option RateLimiterCfg)
    (hM : 2 ≤ orDefaultNat (lc.bind (·.maxStoreSize)) 1000000) (k : String) :
    (∀ (t0 : ℤ) (rest : List ℤ), (t0 :: rest).Pairwise (· ≤ ·) →
      spacedAtDistance L (W * 1000)
        (allowedTimes (t0 :: rest)
          (swRunPairs ⟨(L : ℤ), W, lc⟩ ((t0 :: rest).map (fun t => (k, t))) []).1))
    ∧ (∀ (t0 ε : ℤ), 0 < ε → ε ≤ W * 1000 →
        (swRunPairs ⟨(L : ℤ), W, lc⟩
            ((List.replicate L t0 ++ [t0 + W * 1000 - ε]).map (fun t => (k, t))) []).1
          = List.replicate L true ++ [false]) := by
  have hLz : (0 : ℤ) < ((L : ℕ) : ℤ) := by exact_mod_cast hL
  constructor
  · intro t0 rest hpair
    rcases swRunPairs_from_empty ⟨(L : ℤ), W, lc⟩ k hW hM hLz t0 rest hpair
      with ⟨ts2, hrun⟩
    rw [hrun]
    simp only []
    rcases allowedTimes_spec (L : ℤ) (W * 1000) (t0 :: rest) [] with ⟨suf, h1, h2⟩
    rw [List.nil_append] at h1
    rw [h2, ← h1]
    exact (swAllowedTimes_props L hL (W * 1000) (t0 :: rest) [] hpair (by simp)
      (by simp) (by intro i hi; simp at hi)).2
  · intro t0 ε hε1 hε2
    have hL1 : L = (L - 1) + 1 := by omega
    have hform : List.replicate L t0 ++ [t0 + W * 1000 - ε]
        = t0 :: (List.replicate (L - 1) t0 ++ [t0 + W * 1000 - ε]) := by
      conv_lhs => rw [hL1, List.replicate_succ]
      rfl
    have hpair : (t0 :: (List.replicate (L - 1) t0 ++ [t0 + W * 1000 - ε])).Pairwise
        (· ≤ ·) := by
      rw [← hform]
      rw [List.pairwise_append]
      refine ⟨pairwise_le_replicate t0 L, by simp, ?_⟩
      intro a ha b hb
      rw [List.eq_of_mem_replicate ha]
      have hb2 : b = t0 + W * 1000 - ε := by simpa using hb
      omega
    rcases swRunPairs_from_empty ⟨(L : ℤ), W, lc⟩ k hW hM hLz t0
      (List.replicate (L - 1) t0 ++ [t0 + W * 1000 - ε]) hpair with ⟨ts2, hrun⟩
    rw [hform, hrun]
    simp only []
    rw [← hform]
    rw [swDecisions_append]
    rcases swReplicate L (W * 1000) (by omega) t0 L 0 (by omega) with ⟨hd, ha⟩
    rw [show (List.replicate 0 t0 : List ℤ) = [] from rfl] at hd ha
    rw [hd, ha]
    congr 1
    · simp only [Nat.zero_add]
      exact map_range_all_true L L le_rfl
    · rw [show min (0 + L) L = L from by omega]
      rw [show swDecisions (L : ℤ) (W * 1000) (List.replicate L t0) [t0 + W * 1000 - ε]
          = if (((List.replicate L t0).filter
                (fun u => t0 + W * 1000 - ε - W * 1000 < u)).length : ℤ) < (L : ℤ)
            then true :: swDecisions (L : ℤ) (W * 1000)
              (List.replicate L t0 ++ [t0 + W * 1000 - ε]) []
            else false :: swDecisions (L : ℤ) (W * 1000) (List.replicate L t0) []
          from rfl]
      rw [filter_all_of_lt _ _ (by
        intro x hx
        rw [List.eq_of_mem_replicate hx]
        omega)]
      rw [if_neg (by simp)]
      rfl

/-- Witness for C2: limit 1, window 1s, calls at 0 and 500; and the boundary
burst with ε = 1ms. -/
theorem C2_sliding_window_bound_witness :
    spacedAtDistance 1 1000 (allowedTimes (0 :: [500])
      (swRunPairs ⟨1, 1, none⟩ ((0 :: [500] : List ℤ).map (fun t => ("a", t))) []).1)
    ∧ (swRunPairs ⟨1, 1, none⟩
        ((List.replicate 1 0 ++ [0 + 1 * 1000 - 1]).map (fun t => ("a", t))) []).1
      = List.replicate 1 true ++ [false] := by
  have h := C2_sliding_window_bound 1 (by decide) 1 (by decide) none (by decide) "a"
  exact ⟨h.1 0 [500] (by decide), h.2 0 1 (by decide) (by decide)⟩

lemma tb_step_same_time (scfg : StratConfig) (k : String)
    (hM : 2 ≤ orDefaultNat (scfg.limiterConfig.bind (·.maxStoreSize)) 1000000)
    (t : ℤ) (v cap rate : ℚ) (hvc : v ≤ cap) :
    tbIsAllowed scfg k t [(k, ⟨v, t, cap, rate⟩)]
      = if 1 ≤ v then (true, [(k, ⟨v - 1, t, cap, rate⟩)])
        else (false, [(k, ⟨v, t, cap, rate⟩)]) := by
  unfold tbIsAllowed
  dsimp only
  rw [evictOldest_noop _ _ (by simp; omega) _, mapGet_single]
  simp only [Option.getD_some, Option.isNone_some, Bool.false_eq_true, if_false,
    ite_false]
  rw [show ((t - t : ℤ) : ℚ) = 0 from by simp]
  rw [zero_mul, add_zero, min_eq_right hvc]
  by_cases hv : 1 ≤ v <;> simp [hv, mapSet_single]

lemma tbRunReplicate (scfg : StratConfig) (k : String)
    (hM : 2 ≤ orDefaultNat (scfg.limiterConfig.bind (·.maxStoreSize)) 1000000)
    (t : ℤ) :
    ∀ (n : ℕ) (v cap rate : ℚ), 0 ≤ v → v ≤ cap →
      tbRunPairs scfg (List.replicate n (k, t)) [(k, ⟨v, t, cap, rate⟩)]
        = ((tbExpected n v).1, [(k, ⟨(tbExpected n v).2, t, cap, rate⟩)]) := by
  intro n
  induction n with
  | zero => intro v cap rate _ _; simp [tbRunPairs, tbExpected]
  | succ m ih =>
    intro v cap rate hv0 hvc
    rw [List.replicate_succ]
    by_cases hv : 1 ≤ v
    · simp only [tbRunPairs, tb_step_same_time scfg k hM t v cap rate hvc,
        if_pos hv, ih (v - 1) cap rate (by linarith) (by linarith), tbExpected]
    · simp only [tbRunPairs, tb_step_same_time scfg k hM t v cap rate hvc,
        if_neg hv, ih v cap rate hv0 hvc, tbExpected]

lemma tbExpected_nat : ∀ (n m : ℕ),
    (tbExpected n (m : ℚ)).1 = (List.range n).map (fun i => decide (i < m))
    ∧ (tbExpected n (m : ℚ)).2 = ((m - min n m : ℕ) : ℚ) := by
  intro n
  induction n with
  | zero => intro m; refine ⟨by simp [tbExpected], by simp [tbExpected]⟩
  | succ p ih =>
    intro m
    have h0 : (fun i => decide (i < m)) = (fun i => decide (0 + i < m)) := by
      funext i
      rw [Nat.zero_add]
    rw [h0, range_succ_decide m 0 p]
    by_cases hm : 1 ≤ m
    · have hmq : (1 : ℚ) ≤ (m : ℚ) := by exact_mod_cast hm
      have hcast : ((m : ℚ) - 1) = ((m - 1 : ℕ) : ℚ) := by
        push_cast [hm]
        ring
      rcases ih (m - 1) with ⟨ih1, ih2⟩
      simp only [tbExpected, if_pos hmq]
      refine ⟨?_, ?_⟩
      · rw [hcast, ih1]
        congr 1
        · simp
          omega
        · apply List.map_congr_left
          intro i _
          simp only [decide_eq_decide]
          omega
      · rw [hcast, ih2]
        congr 1
        omega
    · have hmq : ¬ (1 : ℚ) ≤ (m : ℚ) := by exact_mod_cast hm
      rcases ih m with ⟨ih1, ih2⟩
      simp only [tbExpected, if_neg hmq]
      refine ⟨?_, ?_⟩
      · rw [ih1]
        congr 1
        · simp
          omega
        · apply List.map_congr_left
          intro i _
          simp only [decide_eq_decide]
          omega
      · rw [ih2]
        congr 1
        omega

lemma tb_first_step (scfg : StratConfig) (k : String) (t : ℤ)
    (h1 : (1 : ℚ) ≤ (scfg.limit : ℚ)) :
    tbIsAllowed scfg k t []
      = (true, [(k, ⟨(scfg.limit : ℚ) - 1, t, (scfg.limit : ℚ),
          (scfg.limit : ℚ) / ((scfg.windowInSeconds : ℚ) * 1000)⟩)]) := by
  unfold tbIsAllowed
  dsimp only
  rw [show evictOldest (orDefaultNat (scfg.limiterConfig.bind (·.maxStoreSize)) 1000000)
      (List.length ([] : TbStore)) [] = ([] : TbStore) from rfl]
  simp only [mapGet, Option.getD_none, Option.isNone_none, if_true, ite_true]
  rw [show mapSet ([] : TbStore) k ⟨(scfg.limit : ℚ), t, (scfg.limit : ℚ),
      (scfg.limit : ℚ) / ((scfg.windowInSeconds : ℚ) * 1000)⟩
      = [(k, ⟨(scfg.limit : ℚ), t, (scfg.limit : ℚ),
          (scfg.limit : ℚ) / ((scfg.windowInSeconds : ℚ) * 1000)⟩)] from rfl]
  rw [show ((t - t : ℤ) : ℚ) = 0 from by simp]
  rw [zero_mul, add_zero, min_self]
  rw [if_pos h1, mapSet_single]

lemma tb_refill_full (scfg : StratConfig) (k : String)
    (hM : 2 ≤ orDefaultNat (scfg.limiterConfig.bind (·.maxStoreSize)) 1000000)
    (L : ℕ) (hL : 1 ≤ L) (hW : 0 < scfg.windowInSeconds)
    (r t : ℤ) (tok : ℚ) (htok : 0 ≤ tok)
    (hidle : scfg.windowInSeconds * 1000 ≤ t - r) :
    tbIsAllowed scfg k t
        [(k, ⟨tok, r, (L : ℚ), (L : ℚ) / ((scfg.windowInSeconds : ℚ) * 1000)⟩)]
      = (true, [(k, ⟨(L : ℚ) - 1, t, (L : ℚ),
          (L : ℚ) / ((scfg.windowInSeconds : ℚ) * 1000)⟩)]) := by
  have hWq : (0 : ℚ) < (scfg.windowInSeconds : ℚ) * 1000 := by
    have : (0 : ℚ) < (scfg.windowInSeconds : ℚ) := by exact_mod_cast hW
    linarith
  have hLq : (1 : ℚ) ≤ (L : ℚ) := by exact_mod_cast hL
  have hidleq : (scfg.windowInSeconds : ℚ) * 1000 ≤ ((t - r : ℤ) : ℚ) := by
    have := hidle
    push_cast
    exact_mod_cast hidle
  have hrefill : (L : ℚ) ≤ tok + ((t - r : ℤ) : ℚ)
      * ((L : ℚ) / ((scfg.windowInSeconds : ℚ) * 1000)) := by
    have hrate : (0 : ℚ) ≤ (L : ℚ) / ((scfg.windowInSeconds : ℚ) * 1000) := by
      apply div_nonneg
      · exact_mod_cast Nat.zero_le L
      · linarith
    have h2 : ((scfg.windowInSeconds : ℚ) * 1000)
        * ((L : ℚ) / ((scfg.windowInSeconds : ℚ) * 1000))
        ≤ ((t - r : ℤ) : ℚ) * ((L : ℚ) / ((scfg.windowInSeconds : ℚ) * 1000)) :=
      mul_le_mul_of_nonneg_right hidleq hrate
    have h3 : ((scfg.windowInSeconds : ℚ) * 1000)
        * ((L : ℚ) / ((scfg.windowInSeconds : ℚ) * 1000)) = (L : ℚ) := by
      field_simp
    rw [h3] at h2
    linarith
  unfold tbIsAllowed
  dsimp only
  rw [evictOldest_noop _ _ (by simp; omega) _, mapGet_single]
  simp only [Option.getD_some, Option.isNone_some, Bool.false_eq_true, if_false,
    ite_false]
  rw [min_eq_left hrefill]
  rw [if_pos hLq, mapSet_single]

lemma tb_exhaust_step (scfg : StratConfig) (k : String)
    (hM : 2 ≤ orDefaultNat (scfg.limiterConfig.bind (·.maxStoreSize)) 1000000)
    (L : ℕ) (t u' u : ℤ) :
    tbIsAllowed scfg k u
        [(k, ⟨((u' - t : ℤ) : ℚ) * ((L : ℚ) / ((scfg.windowInSeconds : ℚ) * 1000)), u',
          (L : ℚ), (L : ℚ) / ((scfg.windowInSeconds : ℚ) * 1000)⟩)]
      = if 1 ≤ min (L : ℚ) (((u - t : ℤ) : ℚ)
            * ((L : ℚ) / ((scfg.windowInSeconds : ℚ) * 1000)))
        then (true, [(k, ⟨min (L : ℚ) (((u - t : ℤ) : ℚ)
            * ((L : ℚ) / ((scfg.windowInSeconds : ℚ) * 1000))) - 1, u,
            (L : ℚ), (L : ℚ) / ((scfg.windowInSeconds : ℚ) * 1000)⟩)])
        else (false, [(k, ⟨min (L : ℚ) (((u - t : ℤ) : ℚ)
            * ((L : ℚ) / ((scfg.windowInSeconds : ℚ) * 1000))), u,
            (L : ℚ), (L : ℚ) / ((scfg.windowInSeconds : ℚ) * 1000)⟩)]) := by
  have harith : ((u' - t : ℤ) : ℚ) * ((L : ℚ) / ((scfg.windowInSeconds : ℚ) * 1000))
      + ((u - u' : ℤ) : ℚ) * ((L : ℚ) / ((scfg.windowInSeconds : ℚ) * 1000))
      = ((u - t : ℤ) : ℚ) * ((L : ℚ) / ((scfg.windowInSeconds : ℚ) * 1000)) := by
    push_cast
    ring
  unfold tbIsAllowed
  dsimp only
  rw [evictOldest_noop _ _ (by simp; omega) _, mapGet_single]
  simp only [Option.getD_some, Option.isNone_some, Bool.false_eq_true, if_false,
    ite_false]
  rw [harith]
  by_cases hdec : 1 ≤ min (L : ℚ) (((u - t : ℤ) : ℚ)
      * ((L : ℚ) / ((scfg.windowInSeconds : ℚ) * 1000))) <;>
    simp [hdec, mapSet_single]

lemma tb_throttle (scfg : StratConfig) (k : String)
    (hM : 2 ≤ orDefaultNat (scfg.limiterConfig.bind (·.maxStoreSize)) 1000000)
    (L : ℕ) (hL : 1 ≤ L) (hW : 0 < scfg.windowInSeconds) (t : ℤ) :
    ∀ (us : List ℤ) (u' : ℤ), (∀ u ∈ us, u' ≤ u) → us.Pairwise (· ≤ ·) →
      ((u' - t : ℤ) : ℚ) * ((L : ℚ) / ((scfg.windowInSeconds : ℚ) * 1000)) < 1 →
      ∀ i,
        (tbRunPairs scfg (us.map (fun u => (k, u)))
            [(k, ⟨((u' - t : ℤ) : ℚ) * ((L : ℚ) / ((scfg.windowInSeconds : ℚ) * 1000)),
              u', (L : ℚ), (L : ℚ) / ((scfg.windowInSeconds : ℚ) * 1000)⟩)]).1.take i
          = List.replicate i false →
        (tbRunPairs scfg (us.map (fun u => (k, u)))
            [(k, ⟨((u' - t : ℤ) : ℚ) * ((L : ℚ) / ((scfg.windowInSeconds : ℚ) * 1000)),
              u', (L : ℚ), (L : ℚ) / ((scfg.windowInSeconds : ℚ) * 1000)⟩)]).1.getD i false
          = true →
        scfg.windowInSeconds * 1000 ≤ (us.getD i 0 - t) * (L : ℤ) := by
  have hWq : (0 : ℚ) < (scfg.windowInSeconds : ℚ) * 1000 := by
    have : (0 : ℚ) < (scfg.windowInSeconds : ℚ) := by exact_mod_cast hW
    linarith
  have hLq : (1 : ℚ) ≤ (L : ℚ) := by exact_mod_cast hL
  intro us
  induction us with
  | nil =>
    intro u' _ _ _ i _ hget
    simp [tbRunPairs] at hget
  | cons u rest ih =>
    intro u' hge hpair htok i htake hget
    have hu : u' ≤ u := hge u (List.mem_cons_self _ _)
    rcases List.pairwise_cons.mp hpair with ⟨hge2, hpair2⟩
    have hstep := tb_exhaust_step scfg k hM L t u' u
    by_cases hdec : 1 ≤ min (L : ℚ) (((u - t : ℤ) : ℚ)
        * ((L : ℚ) / ((scfg.windowInSeconds : ℚ) * 1000)))
    · have hx : (1 : ℚ) ≤ ((u - t : ℤ) : ℚ)
          * ((L : ℚ) / ((scfg.windowInSeconds : ℚ) * 1000)) :=
        (le_min_iff.mp hdec).2
      cases i with
      | zero =>
        have hq : (scfg.windowInSeconds : ℚ) * 1000 ≤ ((u - t : ℤ) : ℚ) * (L : ℚ) := by
          rw [mul_div_assoc'] at hx
          have := (one_le_div hWq).mp hx
          linarith
        have hz : ((scfg.windowInSeconds * 1000 : ℤ) : ℚ)
            ≤ (((u - t) * (L : ℤ) : ℤ) : ℚ) := by
          push_cast
          push_cast at hq
          linarith
        have hgoal : scfg.windowInSeconds * 1000 ≤ (u - t) * (L : ℤ) := by
          exact_mod_cast hz
        simpa using hgoal
      | succ j =>
        simp only [List.map_cons, tbRunPairs, hstep, if_pos hdec] at htake
        simp only [List.take_succ_cons, List.replicate_succ] at htake
        exact absurd (List.head_eq_of_cons_eq htake) (by decide)
    · have hlt : ((u - t : ℤ) : ℚ)
          * ((L : ℚ) / ((scfg.windowInSeconds : ℚ) * 1000)) < 1 := by
        by_contra hc
        push_neg at hc
        exact hdec (le_min_iff.mpr ⟨hLq, hc⟩)
      have hmin : min (L : ℚ) (((u - t : ℤ) : ℚ)
          * ((L : ℚ) / ((scfg.windowInSeconds : ℚ) * 1000)))
          = ((u - t : ℤ) : ℚ) * ((L : ℚ) / ((scfg.windowInSeconds : ℚ) * 1000)) :=
        min_eq_right (by linarith)
      cases i with
      | zero =>
        simp only [List.map_cons, tbRunPairs, hstep, if_neg hdec] at hget
        simp at hget
      | succ j =>
        simp only [List.map_cons, tbRunPairs, hstep, if_neg hdec] at htake hget
        simp only [hmin] at htake hget
        simp only [List.take_succ_cons, List.replicate_succ] at htake
        have htake2 := List.tail_eq_of_cons_eq htake
        simp only [List.getD_cons_succ] at hget
        have hres := ih u hge2 hpair2 hlt j htake2 hget
        simpa using hres

/-- Claim C3: token bucket with limit `L` and window `W` seconds.  A key whose
record has been idle for at least `W` (so `t − lastRefill ≥ W·1000` ms) gets a
full refill: `L` consecutive calls at `t` are all allowed and drain the bucket
to exactly zero.  From that exhausted state, the first allowed call (any
prefix of rejected calls before it) at time `u` satisfies
`W·1000 ≤ (u − t)·L`, i.e. at least `W/L` seconds have elapsed. -/
theorem C3_token_bucket (L : ℕ) (hL : 1 ≤ L) (W : ℤ) (hW : 0 < W)
    (lc : Option RateLimiterCfg)
    (hM : 2 ≤ orDefaultNat (lc.bind (·.maxStoreSize)) 1000000)
    (k : String) (r t : ℤ) (tok : ℚ) (htok : 0 ≤ tok)
    (hidle : W * 1000 ≤ t - r) :
    tbRunPairs ⟨(L : ℤ), W, lc⟩ (List.replicate L (k, t))
        [(k, ⟨tok, r, (L : ℚ), (L : ℚ) / ((W : ℚ) * 1000)⟩)]
      = (List.replicate L true,
         [(k, ⟨0, t, (L : ℚ), (L : ℚ) / ((W : ℚ) * 1000)⟩)])
    ∧ (∀ (us : List ℤ), (∀ u ∈ us, t ≤ u) → us.Pairwise (· ≤ ·) → ∀ i,
        (tbRunPairs ⟨(L : ℤ), W, lc⟩ (us.map (fun u => (k, u)))
            [(k, ⟨0, t, (L : ℚ), (L : ℚ) / ((W : ℚ) * 1000)⟩)]).1.take i
          = List.replicate i false →
        (tbRunPairs ⟨(L : ℤ), W, lc⟩ (us.map (fun u => (k, u)))
            [(k, ⟨0, t, (L : ℚ), (L : ℚ) / ((W : ℚ) * 1000)⟩)]).1.getD i false
          = true →
        W * 1000 ≤ (us.getD i 0 - t) * (L : ℤ)) := by
  have hL1 : (1 : ℚ) ≤ (L : ℚ) := by exact_mod_cast hL
  constructor
  · have hfirst := tb_refill_full ⟨(L : ℤ), W, lc⟩ k hM L hL hW r t tok htok hidle
    have hcast : ((L : ℚ) - 1) = ((L - 1 : ℕ) : ℚ) := by
      push_cast [hL]
      ring
    have hrest := tbRunReplicate ⟨(L : ℤ), W, lc⟩ k hM t (L - 1)
      ((L : ℚ) - 1) (L : ℚ) ((L : ℚ) / ((W : ℚ) * 1000)) (by linarith) (by linarith)
    rcases tbExpected_nat (L - 1) (L - 1) with ⟨he1, he2⟩
    rw [show List.replicate L (k, t) = (k, t) :: List.replicate (L - 1) (k, t) from by
      conv_lhs => rw [show L = (L - 1) + 1 from by omega, List.replicate_succ]]
    simp only [tbRunPairs, hfirst, hrest]
    rw [hcast, he1, he2]
    rw [map_range_all_true (L - 1) (L - 1) le_rfl]
    rw [show L - 1 - min (L - 1) (L - 1) = 0 from by omega]
    rw [show ((0 : ℕ) : ℚ) = (0 : ℚ) from rfl]
    rw [show (true :: List.replicate (L - 1) true) = List.replicate L true from by
      conv_rhs => rw [show L = (L - 1) + 1 from by omega, List.replicate_succ]]
  · intro us hus hpair i htake hget
    have h := tb_throttle ⟨(L : ℤ), W, lc⟩ k hM L hL hW t us t hus hpair
      (by simp) i
    rw [show ((t - t : ℤ) : ℚ) * ((L : ℚ) / ((W : ℚ) * 1000)) = 0 from by
      push_cast
      ring] at h
    exact h htake hget

/-- Witness for C3: limit 2, window 1s, idle since 0, burst at t = 1000ms. -/
theorem C3_token_bucket_witness :
    tbRunPairs ⟨(2 : ℤ), 1, none⟩ (List.replicate 2 ("a", 1000))
        [("a", ⟨0, 0, (2 : ℚ), (2 : ℚ) / ((1 : ℚ) * 1000)⟩)]
      = (List.replicate 2 true,
         [("a", ⟨0, 1000, (2 : ℚ), (2 : ℚ) / ((1 : ℚ) * 1000)⟩)])
    ∧ (∀ (us : List ℤ), (∀ u ∈ us, 1000 ≤ u) → us.Pairwise (· ≤ ·) → ∀ i,
        (tbRunPairs ⟨(2 : ℤ), 1, none⟩ (us.map (fun u => ("a", u)))
            [("a", ⟨0, 1000, (2 : ℚ), (2 : ℚ) / ((1 : ℚ) * 1000)⟩)]).1.take i
          = List.replicate i false →
        (tbRunPairs ⟨(2 : ℤ), 1, none⟩ (us.map (fun u => ("a", u)))
            [("a", ⟨0, 1000, (2 : ℚ), (2 : ℚ) / ((1 : ℚ) * 1000)⟩)]).1.getD i false
          = true →
        (1 : ℤ) * 1000 ≤ (us.getD i 0 - 1000) * (2 : ℤ)) := by
  have h := C3_token_bucket 2 (by decide) 1 (by decide) none (by decide) "a" 0 1000 0
    (le_refl 0) (by decide)
  push_cast at h
  push_cast
  exact h

lemma count_decide_range (N L : ℕ) (h : L ≤ N) :
    (((List.range N).map (fun i => decide (i < L))).count true) = L
    ∧ (((List.range N).map (fun i => decide (i < L))).count false) = N - L := by
  induction N with
  | zero =>
    have : L = 0 := by omega
    subst this
    simp
  | succ n ih =>
    by_cases hL : L ≤ n
    · rcases ih hL with ⟨ih1, ih2⟩
      rw [List.range_succ, List.map_append, List.count_append, List.count_append]
      have hfalse : decide (n < L) = false := by simp; omega
      simp only [List.map_cons, List.map_nil, hfalse]
      constructor
      · rw [ih1]
        simp
      · rw [ih2]
        simp
        omega
    · have hNL : L = n + 1 := by omega
      rw [map_range_all_true (n + 1) L (by omega)]
      constructor
      · simp [List.count_replicate]
        omega
      · simp [List.count_replicate]
        omega

lemma count_ok_map (l : List Bool) (b : Bool) :
    ((l.map Except.ok : List (Except String Bool))).count (.ok b) = l.count b :=
  List.count_map_of_injective l Except.ok (fun a1 a2 h12 => by injection h12) b

/-- Claim C4: `N` same-instant calls for one key with limit `L ≤ N` yield
exactly `L` allowed and `N − L` rejected for each of the three strategies.
The spec's serialization discipline (§5: only one unit of work touches a store
at a time) is modelled by running the calls in their arrival order; the
promise-based lock itself lives outside a shallow embedding. -/
theorem C4_exactly_L_allowed (L N : ℕ) (hL : 1 ≤ L) (hLN : L ≤ N)
    (W : ℤ) (hW : 0 < W) (hsafe : W * 1000 ≤ maxSafeInteger)
    (lc : Option RateLimiterCfg)
    (hM1 : 2 ≤ orDefaultNat (lc.bind (·.maxStoreSize)) 1000000)
    (hM2 : 2 ≤ (lc.getD emptyRateLimiterCfg).maxStoreSize.getD 1000000)
    (hE : (lc.getD emptyRateLimiterCfg).enablePerKeyStats.getD false = false)
    (k : String) (hk : trimmedEmpty k = false) (t : ℤ) :
    ((fwRunPairs ⟨(L : ℤ), W, lc⟩ (List.replicate N (k, t)) fwInit).1.count (.ok true) = L
      ∧ (fwRunPairs ⟨(L : ℤ), W, lc⟩ (List.replicate N (k, t)) fwInit).1.count (.ok false) = N - L)
    ∧ ((swRunPairs ⟨(L : ℤ), W, lc⟩ (List.replicate N (k, t)) []).1.count true = L
      ∧ (swRunPairs ⟨(L : ℤ), W, lc⟩ (List.replicate N (k, t)) []).1.count false = N - L)
    ∧ ((tbRunPairs ⟨(L : ℤ), W, lc⟩ (List.replicate N (k, t)) []).1.count true = L
      ∧ (tbRunPairs ⟨(L : ℤ), W, lc⟩ (List.replicate N (k, t)) []).1.count false = N - L) := by
  have hLz : (0 : ℤ) < (L : ℤ) := by exact_mod_cast hL
  have hN1 : N = (N - 1) + 1 := by omega
  have hrepl : List.replicate N (k, t) = (List.replicate N t).map (fun u => (k, u)) := by
    rw [List.map_replicate]
  have hsplit : List.replicate N t = t :: List.replicate (N - 1) t := by
    conv_lhs => rw [hN1, List.replicate_succ]
  rcases count_decide_range N L hLN with ⟨hc1, hc2⟩
  refine ⟨?_, ?_, ?_⟩
  · rcases C1_fixed_window_quota L hL W hW hsafe lc hM1 hM2 hE k hk t
        (List.replicate (N - 1) t) (by
          intro u hu
          rw [List.eq_of_mem_replicate hu]
          constructor
          · exact le_refl t
          · omega) with ⟨hres, _⟩
    rw [List.length_replicate, ← hN1] at hres
    rw [hrepl, hsplit, hres]
    rw [show ((List.range N).map (fun i => Except.ok (decide (i < L)))
          : List (Except String Bool))
        = ((List.range N).map (fun i => decide (i < L))).map Except.ok from by
      rw [List.map_map]
      rfl]
    rw [count_ok_map _ true, count_ok_map _ false]
    exact ⟨hc1, hc2⟩
  · have hpair : (t :: List.replicate (N - 1) t).Pairwise (· ≤ ·) := by
      rw [← hsplit]
      exact pairwise_le_replicate t N
    rcases swRunPairs_from_empty ⟨(L : ℤ), W, lc⟩ k hW hM1 hLz t
      (List.replicate (N - 1) t) hpair with ⟨ts2, hrun⟩
    rw [hrepl, hsplit, hrun]
    simp only []
    rw [← hsplit]
    rw [show ([] : List ℤ) = List.replicate 0 t from rfl]
    rcases swReplicate L (W * 1000) (by omega) t N 0 (by omega) with ⟨hd, _⟩
    rw [hd]
    rw [show (fun i => decide (0 + i < L)) = (fun i => decide (i < L)) from by
      funext i
      rw [Nat.zero_add]]
    exact ⟨hc1, hc2⟩
  · have hq1 : (1 : ℚ) ≤ ((L : ℤ) : ℚ) := by exact_mod_cast hL
    have hfirst : tbIsAllowed ⟨(L : ℤ), W, lc⟩ k t []
        = (true, [(k, ⟨((L : ℤ) : ℚ) - 1, t, ((L : ℤ) : ℚ),
            ((L : ℤ) : ℚ) / ((W : ℚ) * 1000)⟩)]) := by
      have h0 := tb_first_step ⟨(L : ℤ), W, lc⟩ k t hq1
      exact h0
    have hcast : (((L : ℤ) : ℚ) - 1) = ((L - 1 : ℕ) : ℚ) := by
      push_cast [hL]
      ring
    have hrest := tbRunReplicate ⟨(L : ℤ), W, lc⟩ k hM1 t (N - 1)
      (((L : ℤ) : ℚ) - 1) ((L : ℤ) : ℚ)
      (((L : ℤ) : ℚ) / ((W : ℚ) * 1000))
      (by linarith) (by linarith)
    rcases tbExpected_nat (N - 1) (L - 1) with ⟨he1, he2⟩
    rw [hrepl, hsplit]
    simp only [List.map_cons, List.map_replicate, tbRunPairs, hfirst]
    rw [hrest, hcast, he1]
    rcases count_decide_range (N - 1) (L - 1) (by omega) with ⟨hd1, hd2⟩
    simp only [List.count_cons]
    rw [hd1, hd2]
    constructor
    · simp
      omega
    · simp
      omega

/-- Witness for C4: two same-instant calls with limit 1 on each strategy. -/
theorem C4_exactly_L_allowed_witness :
    ((fwRunPairs ⟨(1 : ℤ), 1, none⟩ (List.replicate 2 ("a", 0)) fwInit).1.count (.ok true) = 1
      ∧ (fwRunPairs ⟨(1 : ℤ), 1, none⟩ (List.replicate 2 ("a", 0)) fwInit).1.count (.ok false) = 2 - 1)
    ∧ ((swRunPairs ⟨(1 : ℤ), 1, none⟩ (List.replicate 2 ("a", 0)) []).1.count true = 1
      ∧ (swRunPairs ⟨(1 : ℤ), 1, none⟩ (List.replicate 2 ("a", 0)) []).1.count false = 2 - 1)
    ∧ ((tbRunPairs ⟨(1 : ℤ), 1, none⟩ (List.replicate 2 ("a", 0)) []).1.count true = 1
      ∧ (tbRunPairs ⟨(1 : ℤ), 1, none⟩ (List.replicate 2 ("a", 0)) []).1.count false = 2 - 1) :=
  C4_exactly_L_allowed 1 2 (by decide) (by decide) 1 (by decide) (by decide) none
    (by decide) (by decide) (by decide) "a" (by decide) 0

lemma tsEquiv_of_eq (c : ℤ) (l1 l2 : List ℤ) (h : l1 = l2) : tsEquiv c l1 l2 := by
  intro x _
  rw [h]

lemma swEquiv_refl (c : ℤ) (m : SwStore) : swEquiv c m m :=
  List.forall₂_same.mpr (fun p _ => ⟨rfl, rfl, tsEquiv_of_eq c _ _ rfl⟩)

lemma mapGet_cons {α : Type} (a : String) (b : α) (l : List (String × α))
    (k : String) :
    mapGet ((a, b) :: l) k = if a = k then some b else mapGet l k := rfl

lemma mapSet_cons_eq {α : Type} (a : String) (b : α) (l : List (String × α))
    (k : String) (v : α) (h : a = k) :
    mapSet ((a, b) :: l) k v = (a, v) :: l := by
  simp [mapSet, h]

lemma mapSet_cons_ne {α : Type} (a : String) (b : α) (l : List (String × α))
    (k : String) (v : α) (h : ¬ a = k) :
    mapSet ((a, b) :: l) k v = (a, b) :: mapSet l k v := by
  simp [mapSet, h]

lemma mapGet_equiv (c : ℤ) : ∀ (m1 m2 : SwStore), swEquiv c m1 m2 → ∀ k,
    (mapGet m1 k = none ∧ mapGet m2 k = none)
    ∨ ∃ e1 e2, mapGet m1 k = some e1 ∧ mapGet m2 k = some e2
        ∧ e1.expiresAt = e2.expiresAt ∧ tsEquiv c e1.timestamps e2.timestamps := by
  intro m1 m2 he
  induction he with
  | nil => intro k; exact Or.inl ⟨rfl, rfl⟩
  | cons hpq hrest ih =>
    intro k
    rename_i p q l1 l2
    obtain ⟨a1, b1⟩ := p
    obtain ⟨a2, b2⟩ := q
    rcases hpq with ⟨hk, hexp, hts⟩
    simp only at hk hexp hts
    by_cases hkey : a1 = k
    · refine Or.inr ⟨b1, b2, ?_, ?_, hexp, hts⟩
      · rw [mapGet_cons, if_pos hkey]
      · rw [mapGet_cons, if_pos (hk ▸ hkey)]
    · rw [mapGet_cons, if_neg hkey, mapGet_cons, if_neg (hk ▸ hkey)]
      exact ih k

lemma mapSet_equiv (c : ℤ) : ∀ (m1 m2 : SwStore), swEquiv c m1 m2 →
    ∀ (k : String) (v1 v2 : SwEntry), v1.expiresAt = v2.expiresAt →
    tsEquiv c v1.timestamps v2.timestamps →
    swEquiv c (mapSet m1 k v1) (mapSet m2 k v2) := by
  intro m1 m2 he
  induction he with
  | nil =>
    intro k v1 v2 hexp hts
    exact List.Forall₂.cons ⟨rfl, hexp, hts⟩ List.Forall₂.nil
  | cons hpq hrest ih =>
    intro k v1 v2 hexp hts
    rename_i p q l1 l2
    obtain ⟨a1, b1⟩ := p
    obtain ⟨a2, b2⟩ := q
    rcases hpq with ⟨hk, hexp0, hts0⟩
    simp only at hk hexp0 hts0
    by_cases hkey : a1 = k
    · rw [mapSet_cons_eq a1 b1 l1 k v1 hkey, mapSet_cons_eq a2 b2 l2 k v2 (hk ▸ hkey)]
      exact List.Forall₂.cons ⟨hk, hexp, hts⟩ hrest
    · rw [mapSet_cons_ne a1 b1 l1 k v1 hkey, mapSet_cons_ne a2 b2 l2 k v2 (hk ▸ hkey)]
      exact List.Forall₂.cons ⟨hk, hexp0, hts0⟩ (ih k v1 v2 hexp hts)

lemma evictOldest_equiv (c : ℤ) (maxE : ℕ) : ∀ (f : ℕ) (m1 m2 : SwStore),
    swEquiv c m1 m2 → swEquiv c (evictOldest maxE f m1) (evictOldest maxE f m2) := by
  intro f
  induction f with
  | zero => intro m1 m2 he; exact he
  | succ n ih =>
    intro m1 m2 he
    have hlen := List.Forall₂.length_eq he
    unfold evictOldest
    rw [← hlen]
    by_cases hcap : maxE ≤ m1.length
    · rw [if_pos hcap, if_pos hcap]
      cases he with
      | nil => exact List.Forall₂.nil
      | cons hpq hrest => exact ih _ _ hrest
    · rw [if_neg hcap, if_neg hcap]
      exact he

lemma swIsAllowed_equiv (cfg : StratConfig) (c : ℤ) (k2 : String) (t : ℤ)
    (m1 m2 : SwStore) (he : swEquiv c m1 m2)
    (ht : c ≤ t - cfg.windowInSeconds * 1000) :
    (swIsAllowed cfg k2 t m1).1 = (swIsAllowed cfg k2 t m2).1
    ∧ swEquiv c (swIsAllowed cfg k2 t m1).2 (swIsAllowed cfg k2 t m2).2 := by
  unfold swIsAllowed
  dsimp only
  have hlen := List.Forall₂.length_eq he
  rw [← hlen]
  have he1 := evictOldest_equiv c
    (orDefaultNat (cfg.limiterConfig.bind (·.maxStoreSize)) 1000000)
    m1.length m1 m2 he
  rcases mapGet_equiv c _ _ he1 k2 with ⟨hn1, hn2⟩ | ⟨e1, e2, hg1, hg2, hexp, hts⟩
  · rw [hn1, hn2]
    simp only [Option.getD_none, Option.isNone_none, if_true, ite_true,
      List.filter_nil]
    have he2 := mapSet_equiv c _ _ he1 k2
      ⟨[], t + cfg.windowInSeconds * 1000⟩ ⟨[], t + cfg.windowInSeconds * 1000⟩
      rfl (tsEquiv_of_eq c _ _ rfl)
    split_ifs with hd
    · exact ⟨rfl, mapSet_equiv c _ _ he2 k2 _ _ rfl (tsEquiv_of_eq c _ _ rfl)⟩
    · exact ⟨rfl, mapSet_equiv c _ _ he2 k2 _ _ rfl (tsEquiv_of_eq c _ _ rfl)⟩
  · rw [hg1, hg2]
    simp only [Option.getD_some, Option.isNone_some, Bool.false_eq_true, if_false,
      ite_false]
    have hkept := hts (t - cfg.windowInSeconds * 1000) ht
    rw [hkept, hexp]
    split_ifs with hd
    · exact ⟨rfl, mapSet_equiv c _ _ he1 k2 _ _ rfl (tsEquiv_of_eq c _ _ rfl)⟩
    · exact ⟨rfl, mapSet_equiv c _ _ he1 k2 _ _ rfl (tsEquiv_of_eq c _ _ rfl)⟩

lemma swGetState_equiv (cfg : StratConfig) (c : ℤ) (k2 : String) (t : ℤ)
    (m1 m2 : SwStore) (he : swEquiv c m1 m2)
    (ht : c ≤ t - cfg.windowInSeconds * 1000) :
    (swGetState cfg k2 t m1).1 = (swGetState cfg k2 t m2).1
    ∧ swEquiv c (swGetState cfg k2 t m1).2 (swGetState cfg k2 t m2).2 := by
  unfold swGetState
  dsimp only
  rcases mapGet_equiv c _ _ he k2 with ⟨hn1, hn2⟩ | ⟨e1, e2, hg1, hg2, hexp, hts⟩
  · rw [hn1, hn2]
    exact ⟨rfl, he⟩
  · rw [hg1, hg2]
    dsimp only
    have hkept := hts (t - cfg.windowInSeconds * 1000) ht
    rw [hkept, hexp]
    exact ⟨rfl, mapSet_equiv c _ _ he k2 _ _ rfl (tsEquiv_of_eq c _ _ rfl)⟩

lemma swObs_equiv (cfg : StratConfig) (c : ℤ) :
    ∀ (ops : List SwOp) (m1 m2 : SwStore), swEquiv c m1 m2 →
      (∀ op ∈ ops, c + cfg.windowInSeconds * 1000 ≤ swOpTime op) →
      swObs cfg ops m1 = swObs cfg ops m2 := by
  intro ops
  induction ops with
  | nil => intro m1 m2 _ _; rfl
  | cons op rest ih =>
    intro m1 m2 he hops
    have hop := hops op (List.mem_cons_self _ _)
    have hrest := fun o ho => hops o (List.mem_cons_of_mem _ ho)
    cases op with
    | callOp k2 t =>
      have hstep := swIsAllowed_equiv cfg c k2 t m1 m2 he (by
        simp only [swOpTime] at hop
        omega)
      simp only [swObs, hstep.1, ih _ _ hstep.2 hrest]
    | stateOp k2 t =>
      have hstep := swGetState_equiv cfg c k2 t m1 m2 he (by
        simp only [swOpTime] at hop
        omega)
      simp only [swObs, hstep.1, ih _ _ hstep.2 hrest]

lemma swEquiv_mapSet_filter (c : ℤ) : ∀ (m : SwStore) (k : String) (e : SwEntry),
    mapGet m k = some e →
    swEquiv c (mapSet m k ⟨e.timestamps.filter (fun u => c < u), e.expiresAt⟩) m := by
  intro m
  induction m with
  | nil => intro k e hget; simp [mapGet] at hget
  | cons p rest ih =>
    intro k e hget
    obtain ⟨a, b⟩ := p
    rw [mapGet_cons] at hget
    by_cases hkey : a = k
    · rw [if_pos hkey] at hget
      injection hget with hbe
      rw [mapSet_cons_eq a b rest k _ hkey]
      refine List.Forall₂.cons ⟨rfl, by rw [hbe], ?_⟩ (swEquiv_refl c rest)
      intro x hx
      rw [hbe]
      exact filter_cutoff_collapse c x hx e.timestamps
    · rw [if_neg hkey] at hget
      rw [mapSet_cons_ne a b rest k _ hkey]
      exact List.Forall₂.cons ⟨rfl, rfl, tsEquiv_of_eq _ _ _ rfl⟩ (ih k e hget)

lemma swGetState_equiv_post (cfg : StratConfig) (k : String) (t0 : ℤ) (m : SwStore) :
    swEquiv (t0 - cfg.windowInSeconds * 1000) (swGetState cfg k t0 m).2 m := by
  unfold swGetState
  dsimp only
  cases hget : mapGet m k with
  | none => exact swEquiv_refl _ m
  | some e => exact swEquiv_mapSet_filter _ m k e hget

/-- Claim C9: `getState` is observationally read-only.  For the sliding-window
strategy (the only one whose `getState` writes to the store, rewriting the
timestamp list it filtered), any subsequent sequence of `isAllowed`/`getState`
operations issued at or after the `getState` time produces exactly the same
outcomes as if the `getState` had not run; the token-bucket and fixed-window
`getState` return the store/state unchanged outright.  (`getStats` reads only
the limiter's own counters, which no strategy `getState` touches.) -/
theorem C9_getState_read_only (scfg : StratConfig) (k : String) (t0 : ℤ)
    (m : SwStore) (ops : List SwOp) (hops : ∀ op ∈ ops, t0 ≤ swOpTime op) :
    swObs scfg ops (swGetState scfg k t0 m).2 = swObs scfg ops m
    ∧ (∀ (cfg2 : StratConfig) (k2 : String) (t2 : ℤ) (m2 : TbStore),
        (tbGetState cfg2 k2 t2 m2).2 = m2)
    ∧ (∀ (cfg3 : StratConfig) (s3 : FwState), (fwGetState cfg3 s3).2 = s3) := by
  refine ⟨?_, ?_, ?_⟩
  · apply swObs_equiv scfg (t0 - scfg.windowInSeconds * 1000) ops _ _
      (swGetState_equiv_post scfg k t0 m)
    intro op hop
    have := hops op hop
    omega
  · intro cfg2 k2 t2 m2
    unfold tbGetState
    cases mapGet m2 k2 <;> rfl
  · intro cfg3 s3
    rfl

/-- Witness for C9: a concrete one-entry store, `getState` at time 0 followed
by a decision call and a state read at later times. -/
theorem C9_getState_read_only_witness :
    swObs ⟨2, 1, none⟩ [.callOp "a" 5, .stateOp "a" 9]
        (swGetState ⟨2, 1, none⟩ "a" 0 [("a", ⟨[-10, 0], 1000⟩)]).2
      = swObs ⟨2, 1, none⟩ [.callOp "a" 5, .stateOp "a" 9] [("a", ⟨[-10, 0], 1000⟩)]
    ∧ (∀ (cfg2 : StratConfig) (k2 : String) (t2 : ℤ) (m2 : TbStore),
        (tbGetState cfg2 k2 t2 m2).2 = m2)
    ∧ (∀ (cfg3 : StratConfig) (s3 : FwState), (fwGetState cfg3 s3).2 = s3) :=
  C9_getState_read_only ⟨2, 1, none⟩ "a" 0 [("a", ⟨[-10, 0], 1000⟩)]
    [.callOp "a" 5, .stateOp "a" 9] (by decide)
